import Mathlib

set_option linter.unusedSectionVars false

/-!
# Verification of the `skip_list` container (`src/includes/skip_list.hpp`)

Shallow embedding of the C++ skip list.  Heap pointers (`SkipNode*`) are
modelled as indices into an allocation arena `List (Option SkipNode)`;
`none` marks a freed slot, so pointer identity is index identity and a
freed node is distinguishable from a live one.  The sentinel head node is
the distinguished location `Loc.head`, carrying the forward array
`sentinel_forward`.  The pseudo-random draws
`distribution_(random_engine_) < promotion_probability_` are modelled as a
boolean stream `coins : Nat → Bool` (`coins n = true` iff the n-th uniform
draw falls below the promotion probability 0.5).  The two bounded `while`
loops of the search descent are given explicit fuel `arena.length`, which
the structural invariant proves sufficient.
-/

namespace SkipListModel

/-- `MAX_HEIGHT` from the source: the maximal node height. -/
def MAX_HEIGHT : Nat := 16

/-- The loop of `generateRandomHeight`:
`while (distribution_(random_engine_) < promotion_probability_ && height < MAX_HEIGHT) ++height;`.
`idx` counts consumed draws. -/
def generateRandomHeightAux (coins : Nat → Bool) (idx : Nat) (height : Nat) : Nat :=
  if h : coins idx = true ∧ height < MAX_HEIGHT then
    generateRandomHeightAux coins (idx + 1) (height + 1)
  else height
termination_by MAX_HEIGHT - height
decreasing_by
  have := h.2
  omega

/-- `generateRandomHeight()`: starts at height 1. -/
def generateRandomHeight (coins : Nat → Bool) : Nat :=
  generateRandomHeightAux coins 0 1

/-- `SkipNode`: a value plus one forward pointer per level; the node's
height is `forward.length`. -/
structure SkipNode (K : Type) where
  value : K
  forward : List (Option Nat)
deriving DecidableEq

/-- The container state: allocation arena, the sentinel's forward array,
`current_height_` and `element_count_`. -/
structure skip_list (K : Type) where
  arena : List (Option (SkipNode K))
  sentinel_forward : List (Option Nat)
  current_height : Nat
  element_count : Nat
deriving DecidableEq

/-- A traversal location: the sentinel head or a node index. -/
inductive Loc where
  | head
  | node (p : Nat)
deriving DecidableEq

variable {K : Type} [LinearOrder K] [Inhabited K]

/-- The freshly constructed container: empty arena, `MAX_HEIGHT` null
sentinel links, height 0, count 0. -/
def skip_list.new : skip_list K :=
  { arena := [], sentinel_forward := List.replicate MAX_HEIGHT none,
    current_height := 0, element_count := 0 }

/-- Dereference a node index. -/
def skip_list.nodeAt (s : skip_list K) (p : Nat) : Option (SkipNode K) :=
  s.arena.getD p none

/-- The value stored at node `p`, if `p` is live. -/
def skip_list.nodeVal? (s : skip_list K) (p : Nat) : Option K :=
  (s.nodeAt p).map SkipNode.value

/-- The value stored at node `p`, with a junk default for dead slots. -/
def skip_list.valD (s : skip_list K) (p : Nat) : K :=
  ((s.nodeAt p).map SkipNode.value).getD default

/-- The height (`forward.size()`) of node `p`; 0 for dead slots. -/
def skip_list.heightOf (s : skip_list K) (p : Nat) : Nat :=
  match s.nodeAt p with
  | some n => n.forward.length
  | none => 0

/-- `p->forward[i]`. -/
def skip_list.nodeFwd (s : skip_list K) (p : Nat) (i : Nat) : Option Nat :=
  match s.nodeAt p with
  | some n => n.forward.getD i none
  | none => none

/-- The forward pointer of a location at level `i`. -/
def skip_list.fwdAt (s : skip_list K) (l : Loc) (i : Nat) : Option Nat :=
  match l with
  | Loc.head => s.sentinel_forward.getD i none
  | Loc.node p => s.nodeFwd p i

/-- Assignment `l->forward[i] = q` (out-of-range writes, impossible in the
verified runs, are no-ops). -/
def skip_list.setFwd (s : skip_list K) (l : Loc) (i : Nat) (q : Option Nat) : skip_list K :=
  match l with
  | Loc.head => { s with sentinel_forward := s.sentinel_forward.set i q }
  | Loc.node p =>
    { s with arena :=
        s.arena.set p ((s.arena.getD p none).map fun n => { n with forward := n.forward.set i q }) }

/-- The inner loop of the search descent at level `i`:
`while (current->forward[i] && current->forward[i]->value < value) current = current->forward[i];`.
Fuel bounds the number of hops; the invariant shows `arena.length` is enough. -/
def skip_list.advance (s : skip_list K) (v : K) (i : Nat) : Nat → Loc → Loc
  | 0, l => l
  | fuel + 1, l =>
    match s.fwdAt l i with
    | none => l
    | some q =>
      match s.nodeVal? q with
      | none => l
      | some w => if w < v then s.advance v i fuel (Loc.node q) else l

/-- The outer descent `for (int i = current_height_ - 1; i >= 0; --i)`,
recording `update_path[i] = current` after the level-`i` advance. -/
def skip_list.descend (s : skip_list K) (v : K) :
    Nat → Loc → List (Option Loc) → Loc × List (Option Loc)
  | 0, l, upd => (l, upd)
  | i + 1, l, upd =>
    let l2 := s.advance v i s.arena.length l
    s.descend v i l2 (upd.set i (some l2))

/-- The shared search-path computation: descend from the sentinel at level
`current_height - 1`, with `update_path` initialised to `MAX_HEIGHT` nulls. -/
def skip_list.searchPath (s : skip_list K) (v : K) : Loc × List (Option Loc) :=
  s.descend v s.current_height Loc.head (List.replicate MAX_HEIGHT none)

/-- `contains(value)`. -/
def skip_list.contains (s : skip_list K) (v : K) : Bool :=
  match s.fwdAt (s.searchPath v).1 0 with
  | none => false
  | some p =>
    match s.nodeVal? p with
    | none => false
    | some w => decide (w = v)

/-- `find(value)`: the returned iterator, `none` being `end()`. -/
def skip_list.find (s : skip_list K) (v : K) : Option Nat :=
  match s.fwdAt (s.searchPath v).1 0 with
  | none => none
  | some p =>
    match s.nodeVal? p with
    | none => none
    | some w => if w = v then some p else none

/-- The splicing loop of `insert`: for each level `i` (in order),
`newNode->forward[i] = update_path[i]->forward[i]; update_path[i]->forward[i] = newNode;`. -/
def skip_list.spliceLevels (a : Nat) (upd : List (Option Loc)) :
    List Nat → skip_list K → skip_list K
  | [], s => s
  | i :: rest, s =>
    let u := (upd.getD i none).getD Loc.head
    let s2 := s.setFwd (Loc.node a) i (s.fwdAt u i)
    skip_list.spliceLevels a upd rest (s2.setFwd u i (some a))

/-- `insert(value)`: returns the new state and the boolean result. -/
def skip_list.insert (s : skip_list K) (v : K) (coins : Nat → Bool) : skip_list K × Bool :=
  let sp := s.searchPath v
  if (s.fwdAt sp.1 0).bind s.nodeVal? = some v then (s, false)
  else
    let newHeight := generateRandomHeight coins
    let upd2 :=
      if s.current_height < newHeight then
        (List.range' s.current_height (newHeight - s.current_height)).foldl
          (fun u i => u.set i (some Loc.head)) sp.2
      else sp.2
    let newCurrent := if s.current_height < newHeight then newHeight else s.current_height
    let a := s.arena.length
    let s1 : skip_list K :=
      { s with arena := s.arena ++ [some ⟨v, List.replicate newHeight none⟩],
               current_height := newCurrent }
    let s2 := skip_list.spliceLevels a upd2 (List.range newHeight) s1
    ({ s2 with element_count := s2.element_count + 1 }, true)

/-- The unlink loop of `erase`: for each level `i` in order,
`if (update_path[i]->forward[i] != current) break; update_path[i]->forward[i] = current->forward[i];`. -/
def skip_list.unlinkLoop (p : Nat) (upd : List (Option Loc)) :
    List Nat → skip_list K → skip_list K
  | [], s => s
  | i :: rest, s =>
    let u := (upd.getD i none).getD Loc.head
    if s.fwdAt u i = some p then
      skip_list.unlinkLoop p upd rest (s.setFwd u i (s.fwdAt (Loc.node p) i))
    else s

/-- Modelled from the spec: the unconditional variant of the unlink loop the
spec's design note describes, "unlink for levels 0..node_height-1" with no
break condition; C2 compares `unlinkLoop` against it. -/
def skip_list.unlinkAll (p : Nat) (upd : List (Option Loc)) :
    List Nat → skip_list K → skip_list K
  | [], s => s
  | i :: rest, s =>
    let u := (upd.getD i none).getD Loc.head
    skip_list.unlinkAll p upd rest (s.setFwd u i (s.fwdAt (Loc.node p) i))

/-- The trailing-level trim of `erase`:
`while (current_height_ > 0 && sentinel_head_->forward[current_height_-1] == nullptr) --current_height_;`. -/
def shrinkHeight (hf : List (Option Nat)) : Nat → Nat
  | 0 => 0
  | h + 1 => if hf.getD h none = none then shrinkHeight hf h else h + 1

/-- `erase(value)`: returns the new state and the boolean result. -/
def skip_list.erase (s : skip_list K) (v : K) : skip_list K × Bool :=
  if s.element_count = 0 then (s, false)
  else
    let sp := s.searchPath v
    match s.fwdAt sp.1 0 with
    | none => (s, false)
    | some p =>
      if s.nodeVal? p = some v then
        let s1 := skip_list.unlinkLoop p sp.2 (List.range s.current_height) s
        let s2 : skip_list K := { s1 with arena := s1.arena.set p none }
        let s3 : skip_list K :=
          { s2 with current_height := shrinkHeight s2.sentinel_forward s2.current_height }
        ({ s3 with element_count := s3.element_count - 1 }, true)
      else (s, false)

/-- The node-freeing walk of `clear()` along the level-0 chain. -/
def clearLoop (ar : List (Option (SkipNode K))) : Nat → Option Nat → List (Option (SkipNode K))
  | 0, _ => ar
  | _ + 1, none => ar
  | fuel + 1, some p =>
    let next :=
      match ar.getD p none with
      | some n => n.forward.getD 0 none
      | none => none
    clearLoop (ar.set p none) fuel next

/-- `clear()`: free the level-0 chain, null out every sentinel link, reset
`current_height_` and `element_count_`. -/
def skip_list.clear (s : skip_list K) : skip_list K :=
  { arena := clearLoop s.arena s.arena.length (s.sentinel_forward.getD 0 none),
    sentinel_forward := s.sentinel_forward.map fun _ => none,
    current_height := 0, element_count := 0 }

/-- `size()`. -/
def skip_list.size (s : skip_list K) : Nat := s.element_count

/-- `empty()`. -/
def skip_list.isEmpty (s : skip_list K) : Bool := decide (s.element_count = 0)

/-- `begin()`: an iterator is `Option Nat`, a node or `nullptr`. -/
def skip_list.begin (s : skip_list K) : Option Nat := s.sentinel_forward.getD 0 none

/-- `end()`: the null iterator. -/
def skip_list.endIter (_s : skip_list K) : Option Nat := none

/-- `iterator::operator++()` (prefix): `if (current_node_) current_node_ = current_node_->forward[0];`. -/
def skip_list.iterSucc (s : skip_list K) (it : Option Nat) : Option Nat :=
  match it with
  | none => none
  | some p => s.nodeFwd p 0

/-- `iterator::operator++(int)` (postfix): returns the old iterator and the
advanced one. -/
def skip_list.iterSuccPost (s : skip_list K) (it : Option Nat) : Option Nat × Option Nat :=
  (it, s.iterSucc it)

/-- The node indices visited iterating from a start pointer along level 0. -/
def skip_list.chainFrom (s : skip_list K) : Nat → Option Nat → List Nat
  | 0, _ => []
  | _ + 1, none => []
  | fuel + 1, some p => p :: s.chainFrom fuel (s.nodeFwd p 0)

/-- The keys visited iterating from `begin()` to `end()`. -/
def skip_list.toKeys (s : skip_list K) : List K :=
  (s.chainFrom s.arena.length s.begin).filterMap s.nodeVal?

/-- A client operation: an insertion (with its stream of random draws) or an
erasure. -/
inductive Op (K : Type) where
  | ins (v : K) (coins : Nat → Bool)
  | del (v : K)

/-- One operation applied to a state. -/
def applyOp (s : skip_list K) : Op K → skip_list K
  | Op.ins v coins => (s.insert v coins).1
  | Op.del v => (s.erase v).1

/-- A sequence of operations run from the freshly constructed container. -/
def runOps (ops : List (Op K)) : skip_list K :=
  ops.foldl applyOp skip_list.new

/-- A key is present after `ops` iff it was inserted and not subsequently
erased: the last operation mentioning it is an insert. -/
def presentAfter (ops : List (Op K)) (k : K) : Bool :=
  ops.foldl
    (fun b op =>
      match op with
      | Op.ins v _ => if v = k then true else b
      | Op.del v => if v = k then false else b)
    false

/-! ## Proof infrastructure: chains and frame lemmas -/

/-- The location reached after stepping from `l` through the nodes `xs`. -/
def lastLoc (l : Loc) : List Nat → Loc
  | [] => l
  | p :: xs => lastLoc (Loc.node p) xs

/-- `chainOk s i o ns`: starting from the pointer `o`, following the level-`i`
forward links visits exactly the nodes `ns` and ends at null. -/
def skip_list.chainOk (s : skip_list K) (i : Nat) : Option Nat → List Nat → Prop
  | o, [] => o = none
  | o, p :: rest => o = some p ∧ skip_list.chainOk s i (s.nodeFwd p i) rest

theorem lastLoc_nil (l : Loc) : lastLoc l [] = l := rfl

theorem lastLoc_cons (l : Loc) (p : Nat) (xs : List Nat) :
    lastLoc l (p :: xs) = lastLoc (Loc.node p) xs := rfl

theorem lastLoc_append (l : Loc) (xs ys : List Nat) :
    lastLoc l (xs ++ ys) = lastLoc (lastLoc l xs) ys := by
  induction xs generalizing l with
  | nil => rfl
  | cons p xs ih => rw [List.cons_append, lastLoc_cons, lastLoc_cons, ih]

theorem lastLoc_concat (l : Loc) (xs : List Nat) (q : Nat) :
    lastLoc l (xs ++ [q]) = Loc.node q := by
  rw [lastLoc_append]; rfl

theorem fwdAt_head (s : skip_list K) (i : Nat) :
    s.fwdAt Loc.head i = s.sentinel_forward.getD i none := rfl

theorem fwdAt_node (s : skip_list K) (p i : Nat) :
    s.fwdAt (Loc.node p) i = s.nodeFwd p i := rfl

theorem setFwd_element_count (s : skip_list K) (l : Loc) (i : Nat) (q : Option Nat) :
    (s.setFwd l i q).element_count = s.element_count := by
  cases l <;> rfl

theorem setFwd_current_height (s : skip_list K) (l : Loc) (i : Nat) (q : Option Nat) :
    (s.setFwd l i q).current_height = s.current_height := by
  cases l <;> rfl

theorem setFwd_arena_length (s : skip_list K) (l : Loc) (i : Nat) (q : Option Nat) :
    (s.setFwd l i q).arena.length = s.arena.length := by
  cases l with
  | head => rfl
  | node p => simp [skip_list.setFwd]

theorem setFwd_sentinel_length (s : skip_list K) (l : Loc) (i : Nat) (q : Option Nat) :
    (s.setFwd l i q).sentinel_forward.length = s.sentinel_forward.length := by
  cases l with
  | head => simp [skip_list.setFwd]
  | node p => rfl

theorem setFwd_node_sentinel (s : skip_list K) (p i : Nat) (q : Option Nat) :
    (s.setFwd (Loc.node p) i q).sentinel_forward = s.sentinel_forward := rfl

theorem getD_set_self (l : List α) (i : Nat) (x d : α) (h : i < l.length) :
    (l.set i x).getD i d = x := by
  simp [List.getD_eq_getElem?_getD, List.getElem?_set_self', List.getElem?_eq_getElem h]

theorem getD_set_ne (l : List α) (i j : Nat) (x d : α) (h : i ≠ j) :
    (l.set i x).getD j d = l.getD j d := by
  simp [List.getD_eq_getElem?_getD, List.getElem?_set_ne h]

theorem nodeAt_setFwd_head (s : skip_list K) (i : Nat) (q : Option Nat) (p : Nat) :
    (s.setFwd Loc.head i q).nodeAt p = s.nodeAt p := rfl

theorem nodeAt_setFwd_node_ne (s : skip_list K) (p' i : Nat) (q : Option Nat) (p : Nat)
    (h : p' ≠ p) : (s.setFwd (Loc.node p') i q).nodeAt p = s.nodeAt p := by
  simp [skip_list.setFwd, skip_list.nodeAt, List.getElem?_set_ne h]

theorem nodeAt_setFwd_node_self (s : skip_list K) (p i : Nat) (q : Option Nat) :
    (s.setFwd (Loc.node p) i q).nodeAt p =
      (s.nodeAt p).map fun n => { n with forward := n.forward.set i q } := by
  by_cases h : p < s.arena.length
  · have he := List.getElem?_eq_getElem (l := s.arena) h
    simp [skip_list.setFwd, skip_list.nodeAt, List.getElem?_set_self', he]
  · have h1 : s.arena.set p ((s.arena.getD p none).map
        fun n => { n with forward := n.forward.set i q }) = s.arena :=
      List.set_eq_of_length_le (l := s.arena) (n := p) (by omega)
    have h0 : s.arena[p]? = none := List.getElem?_eq_none (by omega)
    have h2 : s.nodeAt p = none := by
      simp [skip_list.nodeAt, List.getD_eq_getElem?_getD, h0]
    simp only [skip_list.setFwd, skip_list.nodeAt] at h2 ⊢
    rw [h1, h2]
    rfl

theorem nodeAt_setFwd_isSome (s : skip_list K) (l : Loc) (i : Nat) (q : Option Nat) (p : Nat) :
    ((s.setFwd l i q).nodeAt p).isSome = ((s.nodeAt p).isSome) := by
  cases l with
  | head => rfl
  | node p' =>
    rcases eq_or_ne p' p with rfl | h
    · rw [nodeAt_setFwd_node_self]; cases s.nodeAt p' <;> rfl
    · rw [nodeAt_setFwd_node_ne _ _ _ _ _ h]

theorem valD_setFwd (s : skip_list K) (l : Loc) (i : Nat) (q : Option Nat) (p : Nat) :
    (s.setFwd l i q).valD p = s.valD p := by
  cases l with
  | head => rfl
  | node p' =>
    rcases eq_or_ne p' p with rfl | h
    · unfold skip_list.valD
      rw [nodeAt_setFwd_node_self]; cases s.nodeAt p' <;> rfl
    · unfold skip_list.valD
      rw [nodeAt_setFwd_node_ne _ _ _ _ _ h]

theorem nodeVal?_setFwd (s : skip_list K) (l : Loc) (i : Nat) (q : Option Nat) (p : Nat) :
    (s.setFwd l i q).nodeVal? p = s.nodeVal? p := by
  cases l with
  | head => rfl
  | node p' =>
    rcases eq_or_ne p' p with rfl | h
    · unfold skip_list.nodeVal?
      rw [nodeAt_setFwd_node_self]; cases s.nodeAt p' <;> rfl
    · unfold skip_list.nodeVal?
      rw [nodeAt_setFwd_node_ne _ _ _ _ _ h]

theorem heightOf_setFwd (s : skip_list K) (l : Loc) (i : Nat) (q : Option Nat) (p : Nat) :
    (s.setFwd l i q).heightOf p = s.heightOf p := by
  cases l with
  | head => rfl
  | node p' =>
    rcases eq_or_ne p' p with rfl | h
    · unfold skip_list.heightOf
      rw [nodeAt_setFwd_node_self]; cases s.nodeAt p' <;> simp
    · unfold skip_list.heightOf
      rw [nodeAt_setFwd_node_ne _ _ _ _ _ h]

/-- Writes at level `i` do not change reads at another level `j`. -/
theorem fwdAt_setFwd_ne_level (s : skip_list K) (l l' : Loc) (i j : Nat) (q : Option Nat)
    (h : i ≠ j) : (s.setFwd l i q).fwdAt l' j = s.fwdAt l' j := by
  cases l with
  | head =>
    cases l' with
    | head =>
      simp [skip_list.setFwd, skip_list.fwdAt, List.getD_eq_getElem?_getD,
        List.getElem?_set_ne h]
    | node p => rfl
  | node p =>
    cases l' with
    | head => rfl
    | node p' =>
      show (s.setFwd (Loc.node p) i q).nodeFwd p' j = s.nodeFwd p' j
      rcases eq_or_ne p p' with rfl | hp
      · unfold skip_list.nodeFwd
        rw [nodeAt_setFwd_node_self]
        cases s.nodeAt p <;>
          simp [List.getD_eq_getElem?_getD, List.getElem?_set_ne h]
      · unfold skip_list.nodeFwd
        rw [nodeAt_setFwd_node_ne _ _ _ _ _ hp]

/-- Writes at one location do not change reads at a different location. -/
theorem fwdAt_setFwd_ne_loc (s : skip_list K) (l l' : Loc) (i j : Nat) (q : Option Nat)
    (h : l ≠ l') : (s.setFwd l i q).fwdAt l' j = s.fwdAt l' j := by
  cases l with
  | head =>
    cases l' with
    | head => exact absurd rfl h
    | node p => rfl
  | node p =>
    cases l' with
    | head => rfl
    | node p' =>
      have hp : p ≠ p' := by intro hpp; exact h (by rw [hpp])
      show (s.setFwd (Loc.node p) i q).nodeFwd p' j = s.nodeFwd p' j
      unfold skip_list.nodeFwd
      rw [nodeAt_setFwd_node_ne _ _ _ _ _ hp]

/-- `chainSeg s i o ns o2`: from the pointer `o`, following the level-`i`
links visits exactly `ns` and leaves the final link `o2` dangling. -/
def skip_list.chainSeg (s : skip_list K) (i : Nat) : Option Nat → List Nat → Option Nat → Prop
  | o, [], o2 => o2 = o
  | o, p :: rest, o2 => o = some p ∧ skip_list.chainSeg s i (s.nodeFwd p i) rest o2

theorem chainOk_iff_chainSeg (s : skip_list K) (i : Nat) (o : Option Nat) (ns : List Nat) :
    s.chainOk i o ns ↔ s.chainSeg i o ns none := by
  induction ns generalizing o with
  | nil => exact ⟨fun h => h.symm, fun h => h.symm⟩
  | cons p rest ih =>
    exact ⟨fun h => ⟨h.1, (ih _).1 h.2⟩, fun h => ⟨h.1, (ih _).2 h.2⟩⟩

theorem chainSeg_append_iff (s : skip_list K) (i : Nat) (o o2 : Option Nat) (xs ys : List Nat) :
    s.chainSeg i o (xs ++ ys) o2 ↔ ∃ om, s.chainSeg i o xs om ∧ s.chainSeg i om ys o2 := by
  induction xs generalizing o with
  | nil =>
    constructor
    · exact fun h => ⟨o, rfl, h⟩
    · rintro ⟨om, rfl, h⟩
      exact h
  | cons p rest ih =>
    constructor
    · rintro ⟨rfl, h⟩
      obtain ⟨om, h1, h2⟩ := (ih _).1 h
      exact ⟨om, ⟨rfl, h1⟩, h2⟩
    · rintro ⟨om, ⟨rfl, h1⟩, h2⟩
      exact ⟨rfl, (ih _).2 ⟨om, h1, h2⟩⟩

theorem chainSeg_singleton_iff (s : skip_list K) (i : Nat) (o o2 : Option Nat) (q : Nat) :
    s.chainSeg i o [q] o2 ↔ o = some q ∧ o2 = s.nodeFwd q i := Iff.rfl

/-- Along a segment starting at `fwdAt l i`, the dangling final link is the
forward pointer of the location reached. -/
theorem chainSeg_end (s : skip_list K) (i : Nat) (xs : List Nat) :
    ∀ (l : Loc) (o2 : Option Nat), s.chainSeg i (s.fwdAt l i) xs o2 →
      o2 = s.fwdAt (lastLoc l xs) i := by
  induction xs with
  | nil => exact fun l o2 h => h
  | cons p rest ih =>
    intro l o2 h
    rw [lastLoc_cons]
    exact ih (Loc.node p) o2 h.2

/-- A chain stays a chain in a state whose level-`i` links of its members are
unchanged. -/
theorem chainSeg_congr {s s' : skip_list K} {i : Nat} {ns : List Nat}
    (hf : ∀ p ∈ ns, s'.nodeFwd p i = s.nodeFwd p i) :
    ∀ {o o2 : Option Nat}, s.chainSeg i o ns o2 → s'.chainSeg i o ns o2 := by
  induction ns with
  | nil => exact fun h => h
  | cons p rest ih =>
    intro o o2 h
    refine ⟨h.1, ?_⟩
    rw [hf p (by simp)]
    exact ih (fun q hq => hf q (by simp [hq])) h.2

theorem chainOk_congr {s s' : skip_list K} {i : Nat} {ns : List Nat}
    (hf : ∀ p ∈ ns, s'.nodeFwd p i = s.nodeFwd p i) {o : Option Nat}
    (h : s.chainOk i o ns) : s'.chainOk i o ns :=
  (chainOk_iff_chainSeg s' i o ns).2 (chainSeg_congr hf ((chainOk_iff_chainSeg s i o ns).1 h))

/-- Dropping a traversed prefix of a chain. -/
theorem chainOk_suffix (s : skip_list K) (i : Nat) (xs ys : List Nat) :
    ∀ l : Loc, s.chainOk i (s.fwdAt l i) (xs ++ ys) →
      s.chainOk i (s.fwdAt (lastLoc l xs) i) ys := by
  induction xs with
  | nil => exact fun l h => h
  | cons p rest ih =>
    intro l h
    rw [lastLoc_cons]
    exact ih (Loc.node p) h.2

theorem chainOk_head (s : skip_list K) (i : Nat) (o : Option Nat) (ns : List Nat)
    (h : s.chainOk i o ns) : o = ns.head? := by
  cases ns with
  | nil => exact h
  | cons p rest => exact h.1

/-- Reading back an in-range write. -/
theorem fwdAt_setFwd_self (s : skip_list K) (l : Loc) (i : Nat) (q : Option Nat)
    (h : match l with
         | Loc.head => i < s.sentinel_forward.length
         | Loc.node p => ∃ n, s.nodeAt p = some n ∧ i < n.forward.length) :
    (s.setFwd l i q).fwdAt l i = q := by
  cases l with
  | head => exact getD_set_self _ _ _ _ h
  | node p =>
    obtain ⟨n, hn, hi⟩ := h
    show (s.setFwd (Loc.node p) i q).nodeFwd p i = q
    unfold skip_list.nodeFwd
    rw [nodeAt_setFwd_node_self, hn]
    simp [List.getD_eq_getElem?_getD, List.getElem?_set_self', List.getElem?_eq_getElem hi]

/-! ## The level decomposition of a state and the structural invariant -/

/-- The test `·->value < v` used by the search loops (on live nodes). -/
def below (s : skip_list K) (v : K) : Nat → Bool :=
  fun p => decide (s.valD p < v)

/-- The nodes of `ns` participating in level `i` (the level-`i` chain). -/
def levChain (s : skip_list K) (ns : List Nat) (i : Nat) : List Nat :=
  ns.filter fun p => decide (i < s.heightOf p)

/-- The strict prefix of the level-`i` chain whose keys are `< v`. -/
def splitA (s : skip_list K) (ns : List Nat) (v : K) (i : Nat) : List Nat :=
  (levChain s ns i).takeWhile (below s v)

/-- The rest of the level-`i` chain (keys `≥ v`). -/
def splitB (s : skip_list K) (ns : List Nat) (v : K) (i : Nat) : List Nat :=
  (levChain s ns i).dropWhile (below s v)

/-- The update-path location at level `i`: sentinel if no level-`i` node is
`< v`, otherwise the rightmost such node. -/
def updLoc (s : skip_list K) (ns : List Nat) (v : K) (i : Nat) : Loc :=
  lastLoc Loc.head (splitA s ns v i)

/-- The maximum node height over `ns` (0 if empty). -/
def maxHeightOf (s : skip_list K) (ns : List Nat) : Nat :=
  (ns.map s.heightOf).foldr max 0

/-- The structural invariant tying a reachable state to its list `ns` of live
node indices in key order. -/
structure Inv (s : skip_list K) (ns : List Nat) : Prop where
  hflen : s.sentinel_forward.length = MAX_HEIGHT
  live : ∀ p ∈ ns, (s.nodeAt p).isSome = true
  hhts : ∀ p ∈ ns, 1 ≤ s.heightOf p ∧ s.heightOf p ≤ MAX_HEIGHT
  hcur : s.current_height = maxHeightOf s ns
  hchains : ∀ i < MAX_HEIGHT,
    s.chainOk i (s.sentinel_forward.getD i none) (levChain s ns i)
  hsorted : List.Pairwise (fun p q => s.valD p < s.valD q) ns
  hcount : s.element_count = ns.length

theorem maxHeightOf_le_iff (s : skip_list K) (ns : List Nat) (j : Nat) :
    maxHeightOf s ns ≤ j ↔ ∀ p ∈ ns, s.heightOf p ≤ j := by
  unfold maxHeightOf
  induction ns with
  | nil => simp
  | cons p rest ih => simp [ih, Nat.max_le]

theorem heightOf_le_maxHeightOf (s : skip_list K) (ns : List Nat) (p : Nat) (hp : p ∈ ns) :
    s.heightOf p ≤ maxHeightOf s ns :=
  (maxHeightOf_le_iff s ns (maxHeightOf s ns)).1 le_rfl p hp

theorem maxHeightOf_perm (s : skip_list K) {ns ns' : List Nat} (h : ns.Perm ns') :
    maxHeightOf s ns = maxHeightOf s ns' := by
  unfold maxHeightOf
  exact (h.map s.heightOf).foldr_eq' (fun x _ y _ z => by
    rw [Nat.max_left_comm]) 0

theorem maxHeightOf_congr {s s' : skip_list K} {ns : List Nat}
    (h : ∀ p ∈ ns, s'.heightOf p = s.heightOf p) :
    maxHeightOf s' ns = maxHeightOf s ns := by
  unfold maxHeightOf
  induction ns with
  | nil => rfl
  | cons p rest ih =>
    simp only [List.map_cons, List.foldr_cons]
    rw [h p (by simp), ih (fun q hq => h q (by simp [hq]))]

/-- On a list whose values are strictly sorted, `takeWhile (· < v)` is
`filter (· < v)`. -/
theorem sorted_takeWhile_eq_filter (s : skip_list K) (v : K) (l : List Nat)
    (hs : List.Pairwise (fun p q => s.valD p < s.valD q) l) :
    l.takeWhile (below s v) = l.filter (below s v) := by
  induction l with
  | nil => rfl
  | cons p rest ih =>
    rcases List.pairwise_cons.1 hs with ⟨hp, htail⟩
    by_cases h : below s v p = true
    · rw [List.takeWhile_cons_of_pos h, List.filter_cons_of_pos h, ih htail]
    · rw [List.takeWhile_cons_of_neg (by simp [h]), List.filter_cons_of_neg h]
      symm
      rw [List.filter_eq_nil_iff]
      intro q hq
      simp only [below, decide_eq_true_eq] at h ⊢
      exact fun hlt => h ((hp q hq).trans hlt)

/-- On a list whose values are strictly sorted, `dropWhile (· < v)` is
`filter (¬ · < v)`. -/
theorem sorted_dropWhile_eq_filter (s : skip_list K) (v : K) (l : List Nat)
    (hs : List.Pairwise (fun p q => s.valD p < s.valD q) l) :
    l.dropWhile (below s v) = l.filter (fun p => !below s v p) := by
  induction l with
  | nil => rfl
  | cons p rest ih =>
    rcases List.pairwise_cons.1 hs with ⟨hp, htail⟩
    by_cases h : below s v p = true
    · rw [List.dropWhile_cons_of_pos h, List.filter_cons_of_neg (by simp [h]), ih htail]
    · rw [List.dropWhile_cons_of_neg (by simp [h]), List.filter_cons_of_pos (by simp [h])]
      congr 1
      symm
      rw [List.filter_eq_self]
      intro q hq
      simp only [below, decide_eq_true_eq, Bool.not_eq_true'] at h ⊢
      rw [decide_eq_false_iff_not]
      intro hlt
      exact h ((hp q hq).trans hlt)

/-! ## Basic consequences of the invariant -/

theorem nodeVal?_eq_valD (s : skip_list K) (p : Nat) (h : (s.nodeAt p).isSome = true) :
    s.nodeVal? p = some (s.valD p) := by
  unfold skip_list.nodeVal? skip_list.valD
  cases hn : s.nodeAt p with
  | none => rw [hn] at h; cases h
  | some n => rfl

theorem live_lt_arena (s : skip_list K) (p : Nat) (h : (s.nodeAt p).isSome = true) :
    p < s.arena.length := by
  by_contra hge
  have : s.arena[p]? = none := List.getElem?_eq_none (by omega)
  unfold skip_list.nodeAt at h
  rw [List.getD_eq_getElem?_getD, this] at h
  cases h

theorem Inv.nodup {s : skip_list K} {ns : List Nat} (hInv : Inv s ns) : ns.Nodup :=
  hInv.hsorted.imp fun {a b} hab hne => by rw [hne] at hab; exact lt_irrefl _ hab

theorem Inv.length_le {s : skip_list K} {ns : List Nat} (hInv : Inv s ns) :
    ns.length ≤ s.arena.length := by
  have hsub : ns ⊆ List.range s.arena.length := fun p hp =>
    List.mem_range.2 (live_lt_arena s p (hInv.live p hp))
  have := (List.subperm_of_subset hInv.nodup hsub).length_le
  simpa using this

theorem Inv.curH_le {s : skip_list K} {ns : List Nat} (hInv : Inv s ns) :
    s.current_height ≤ MAX_HEIGHT := by
  rw [hInv.hcur, maxHeightOf_le_iff]
  exact fun p hp => (hInv.hhts p hp).2

theorem levChain_sublist (s : skip_list K) (ns : List Nat) (i : Nat) :
    (levChain s ns i).Sublist ns := List.filter_sublist ns

theorem levChain_pairwise {s : skip_list K} {ns : List Nat} (hInv : Inv s ns) (i : Nat) :
    List.Pairwise (fun p q => s.valD p < s.valD q) (levChain s ns i) :=
  hInv.hsorted.sublist (levChain_sublist s ns i)

theorem levChain_zero {s : skip_list K} {ns : List Nat} (hInv : Inv s ns) :
    levChain s ns 0 = ns := by
  unfold levChain
  rw [List.filter_eq_self]
  intro p hp
  simpa using (hInv.hhts p hp).1

theorem levChain_succ {s : skip_list K} (ns : List Nat) (i : Nat) :
    levChain s ns (i + 1) =
      (levChain s ns i).filter (fun p => decide ((i + 1) < s.heightOf p)) := by
  unfold levChain
  rw [List.filter_filter]
  apply List.filter_congr
  intro p _
  by_cases h : i + 1 < s.heightOf p
  · have h2 : i < s.heightOf p := by omega
    simp [h, h2]
  · simp [h]

theorem levChain_high {s : skip_list K} {ns : List Nat} (hInv : Inv s ns) (i : Nat)
    (hi : s.current_height ≤ i) : levChain s ns i = [] := by
  unfold levChain
  rw [List.filter_eq_nil_iff]
  intro p hp
  have h1 : s.heightOf p ≤ s.current_height := by
    rw [hInv.hcur]
    exact heightOf_le_maxHeightOf s ns p hp
  simp only [decide_eq_true_eq]
  omega

theorem splitA_append_splitB (s : skip_list K) (ns : List Nat) (v : K) (i : Nat) :
    splitA s ns v i ++ splitB s ns v i = levChain s ns i := by
  unfold splitA splitB
  exact List.takeWhile_append_dropWhile _ _

theorem splitA_subset (s : skip_list K) (ns : List Nat) (v : K) (i : Nat) :
    splitA s ns v i ⊆ levChain s ns i :=
  (List.takeWhile_sublist _).subset

theorem splitB_subset (s : skip_list K) (ns : List Nat) (v : K) (i : Nat) :
    splitB s ns v i ⊆ levChain s ns i :=
  (List.dropWhile_sublist _).subset

theorem updLoc_curH {s : skip_list K} {ns : List Nat} (hInv : Inv s ns) (v : K) :
    updLoc s ns v s.current_height = Loc.head := by
  unfold updLoc splitA
  rw [levChain_high hInv _ le_rfl]
  rfl

/-! ## Correctness of the two search loops -/

/-- The inner `while` loop stops at the rightmost chain node with key `< v`. -/
theorem advance_spec (s : skip_list K) (v : K) (i : Nat) (ms : List Nat) :
    ∀ (fuel : Nat) (l : Loc),
      s.chainOk i (s.fwdAt l i) ms →
      (∀ p ∈ ms, (s.nodeAt p).isSome = true) →
      ms.length ≤ fuel →
      s.advance v i fuel l = lastLoc l (ms.takeWhile (below s v)) := by
  induction ms with
  | nil =>
    intro fuel l hch _ _
    have hnone : s.fwdAt l i = none := hch
    cases fuel with
    | zero => rfl
    | succ f => simp [skip_list.advance, hnone, List.takeWhile_nil, lastLoc_nil]
  | cons p rest ih =>
    intro fuel l hch hlive hfuel
    obtain ⟨ho, hrest⟩ := hch
    have hps : s.nodeVal? p = some (s.valD p) :=
      nodeVal?_eq_valD s p (hlive p (by simp))
    cases fuel with
    | zero => simp at hfuel
    | succ f =>
      by_cases hlt : s.valD p < v
      · have htw : (p :: rest).takeWhile (below s v) = p :: rest.takeWhile (below s v) :=
          List.takeWhile_cons_of_pos (by simp [below, hlt])
        rw [htw, lastLoc_cons]
        have hstep : s.advance v i (f + 1) l = s.advance v i f (Loc.node p) := by
          simp [skip_list.advance, ho, hps, hlt]
        rw [hstep]
        exact ih f (Loc.node p) hrest (fun q hq => hlive q (by simp [hq]))
          (by simp only [List.length_cons] at hfuel; omega)
      · have htw : (p :: rest).takeWhile (below s v) = [] :=
          List.takeWhile_cons_of_neg (by simp [below, hlt])
        rw [htw, lastLoc_nil]
        simp [skip_list.advance, ho, hps, hlt]

/-- After the inner loop, the rest of the chain (keys `≥ v`) hangs off the
stopping location. -/
theorem advance_residual (s : skip_list K) (v : K) (i : Nat) (ms : List Nat) (l : Loc)
    (hch : s.chainOk i (s.fwdAt l i) ms) :
    s.chainOk i (s.fwdAt (lastLoc l (ms.takeWhile (below s v))) i)
      (ms.dropWhile (below s v)) := by
  apply chainOk_suffix
  rw [List.takeWhile_append_dropWhile]
  exact hch

/-- Descending one level from the update location of level `i+1` reaches the
update location of level `i`. -/
theorem advance_level {s : skip_list K} {ns : List Nat} (hInv : Inv s ns) (v : K) (i : Nat)
    (hi : i < MAX_HEIGHT) :
    s.advance v i s.arena.length (updLoc s ns v (i + 1)) = updLoc s ns v i := by
  have hch : s.chainOk i (s.fwdAt Loc.head i) (levChain s ns i) := hInv.hchains i hi
  have hlive : ∀ p ∈ levChain s ns i, (s.nodeAt p).isSome = true := fun p hp =>
    hInv.live p ((levChain_sublist s ns i).subset hp)
  have hlen : (levChain s ns i).length ≤ s.arena.length :=
    le_trans ((levChain_sublist s ns i).length_le) hInv.length_le
  rcases List.eq_nil_or_concat (splitA s ns v (i + 1)) with hA | ⟨xs, q, hA⟩
  · have hu : updLoc s ns v (i + 1) = Loc.head := by unfold updLoc; rw [hA]; rfl
    rw [hu]
    exact advance_spec s v i (levChain s ns i) s.arena.length Loc.head hch hlive hlen
  · rw [List.concat_eq_append] at hA
    have hu : updLoc s ns v (i + 1) = Loc.node q := by unfold updLoc; rw [hA, lastLoc_concat]
    have hqA : q ∈ splitA s ns v (i + 1) := by rw [hA]; simp
    have hqlev1 : q ∈ levChain s ns (i + 1) := splitA_subset s ns v (i + 1) hqA
    have hqlev : q ∈ levChain s ns i := by
      rw [levChain_succ ns i] at hqlev1
      exact List.mem_of_mem_filter hqlev1
    have hqbelow : s.valD q < v := by
      have := List.mem_takeWhile_imp hqA
      simpa [below] using this
    obtain ⟨xs2, ys, hsplit⟩ := List.append_of_mem hqlev
    have hxs2 : ∀ x ∈ xs2, below s v x = true := by
      intro x hx
      have hpw := levChain_pairwise hInv i
      rw [hsplit] at hpw
      have hxq : s.valD x < s.valD q :=
        (List.pairwise_append.1 hpw).2.2 x hx q (by simp)
      simp [below]
      exact hxq.trans hqbelow
    have hAi : splitA s ns v i = (xs2 ++ [q]) ++ ys.takeWhile (below s v) := by
      unfold splitA
      rw [hsplit, List.append_cons]
      rw [List.takeWhile_append_of_pos]
      intro x hx
      rcases List.mem_append.1 hx with hx2 | hx1
      · exact hxs2 x hx2
      · rcases List.mem_singleton.1 hx1 with rfl
        simp [below, hqbelow]
    have hchys : s.chainOk i (s.fwdAt (Loc.node q) i) ys := by
      have h1 : s.chainOk i (s.fwdAt Loc.head i) ((xs2 ++ [q]) ++ ys) := by
        rw [← List.append_cons] at *
        rw [List.append_cons] at hsplit ⊢
        rw [← hsplit]
        exact hch
      have := chainOk_suffix s i (xs2 ++ [q]) ys Loc.head h1
      rwa [lastLoc_concat] at this
    have hlys : ∀ p ∈ ys, (s.nodeAt p).isSome = true := by
      intro p hp
      apply hlive
      rw [hsplit]
      simp [hp]
    have hlenys : ys.length ≤ s.arena.length := by
      have : ys.length ≤ (levChain s ns i).length := by
        rw [hsplit]; simp; omega
      omega
    rw [hu]
    have hstep := advance_spec s v i ys s.arena.length (Loc.node q) hchys hlys hlenys
    rw [hstep]
    unfold updLoc
    rw [hAi, lastLoc_append, lastLoc_concat]

/-- The sequence of `update_path` writes performed by the descent. -/
def updFill (s : skip_list K) (ns : List Nat) (v : K) (upd : List (Option Loc)) :
    Nat → List (Option Loc)
  | 0 => upd
  | i + 1 => updFill s ns v (upd.set i (some (updLoc s ns v i))) i

theorem updFill_length (s : skip_list K) (ns : List Nat) (v : K) :
    ∀ (k : Nat) (upd : List (Option Loc)), (updFill s ns v upd k).length = upd.length := by
  intro k
  induction k with
  | zero => intro upd; rfl
  | succ i ih =>
    intro upd
    show (updFill s ns v (upd.set i (some (updLoc s ns v i))) i).length = _
    rw [ih]
    simp

theorem updFill_getD (s : skip_list K) (ns : List Nat) (v : K) :
    ∀ (k : Nat) (upd : List (Option Loc)), k ≤ upd.length → ∀ j,
      (updFill s ns v upd k).getD j none =
        if j < k then some (updLoc s ns v j) else upd.getD j none := by
  intro k
  induction k with
  | zero =>
    intro upd _ j
    show upd.getD j none = if j < 0 then some (updLoc s ns v j) else upd.getD j none
    simp
  | succ i ih =>
    intro upd hk j
    show (updFill s ns v (upd.set i (some (updLoc s ns v i))) i).getD j none = _
    rw [ih _ (by simp; omega) j]
    by_cases hj : j < i
    · simp [hj, show j < i + 1 by omega]
    · by_cases hji : j = i
      · subst hji
        simp only [hj, if_false, Nat.lt_succ_iff, le_refl, if_true]
        exact getD_set_self _ _ _ _ (by omega)
      · have : ¬ j < i + 1 := by omega
        simp only [hj, if_false, this, if_false]
        exact getD_set_ne _ _ _ _ _ (by omega)

/-- The outer `for` descent computes all update-path locations. -/
theorem descend_spec {s : skip_list K} {ns : List Nat} (hInv : Inv s ns) (v : K) :
    ∀ (k : Nat), k ≤ s.current_height → ∀ (upd : List (Option Loc)),
      s.descend v k (updLoc s ns v k) upd = (updLoc s ns v 0, updFill s ns v upd k) := by
  intro k
  induction k with
  | zero => intro _ upd; rfl
  | succ i ih =>
    intro hk upd
    have hi16 : i < MAX_HEIGHT := by
      have := hInv.curH_le
      omega
    show s.descend v (i + 1) (updLoc s ns v (i + 1)) upd = _
    unfold skip_list.descend
    rw [advance_level hInv v i hi16]
    exact ih (by omega) (upd.set i (some (updLoc s ns v i)))

theorem getD_replicate_none (n j : Nat) :
    (List.replicate n (none : Option Loc)).getD j none = none := by
  rw [List.getD_eq_getElem?_getD, List.getElem?_replicate]
  split <;> rfl

/-- The full search path: final location and recorded update path. -/
theorem searchPath_spec {s : skip_list K} {ns : List Nat} (hInv : Inv s ns) (v : K) :
    s.searchPath v =
      (updLoc s ns v 0,
        updFill s ns v (List.replicate MAX_HEIGHT none) s.current_height) := by
  unfold skip_list.searchPath
  rw [← updLoc_curH hInv v]
  exact descend_spec hInv v s.current_height le_rfl _

/-- Reads of the recorded update path. -/
theorem searchPath_upd_getD {s : skip_list K} {ns : List Nat} (hInv : Inv s ns) (v : K)
    (j : Nat) :
    (s.searchPath v).2.getD j none =
      if j < s.current_height then some (updLoc s ns v j) else none := by
  rw [searchPath_spec hInv v]
  have h1 := updFill_getD s ns v s.current_height (List.replicate MAX_HEIGHT none)
    (by simp [List.length_replicate]; exact hInv.curH_le) j
  simp only at h1
  rw [h1, getD_replicate_none]

/-! ## The candidate node after the descent -/

/-- The part of the level-`i` chain with keys `≥ v` hangs off the update
location at level `i`. -/
theorem updLoc_chain {s : skip_list K} {ns : List Nat} (hInv : Inv s ns) (v : K) (i : Nat)
    (hi : i < MAX_HEIGHT) :
    s.chainOk i (s.fwdAt (updLoc s ns v i) i) (splitB s ns v i) := by
  have hch : s.chainOk i (s.fwdAt Loc.head i) (splitA s ns v i ++ splitB s ns v i) := by
    rw [splitA_append_splitB]
    exact hInv.hchains i hi
  exact chainOk_suffix s i _ _ Loc.head hch

theorem updLoc_fwd {s : skip_list K} {ns : List Nat} (hInv : Inv s ns) (v : K) (i : Nat)
    (hi : i < MAX_HEIGHT) :
    s.fwdAt (updLoc s ns v i) i = (splitB s ns v i).head? :=
  chainOk_head s i _ _ (updLoc_chain hInv v i hi)

theorem dropWhile_head_not {α : Type} (p : α → Bool) (l : List α) (x : α)
    (h : (l.dropWhile p).head? = some x) : p x = false := by
  have h2 := List.head?_dropWhile_not p l
  rw [h] at h2
  exact h2

theorem splitB_head_not_below {s : skip_list K} {ns : List Nat} {v : K} {i : Nat} {b : Nat}
    (h : (splitB s ns v i).head? = some b) : ¬ s.valD b < v := by
  have h2 := dropWhile_head_not (below s v) (levChain s ns i) b h
  simpa [below] using h2

/-- The level-0 candidate after the descent carries `v` iff `v` is present. -/
theorem mem_map_iff_candidate {s : skip_list K} {ns : List Nat} (hInv : Inv s ns) (v : K) :
    v ∈ ns.map s.valD ↔ ∃ b, (splitB s ns v 0).head? = some b ∧ s.valD b = v := by
  constructor
  · intro hmem
    obtain ⟨p, hp, hval⟩ := List.mem_map.1 hmem
    have hpAB : p ∈ splitA s ns v 0 ++ splitB s ns v 0 := by
      rw [splitA_append_splitB, levChain_zero hInv]
      exact hp
    have hpB : p ∈ splitB s ns v 0 := by
      rcases List.mem_append.1 hpAB with hA | hB
      · have := List.mem_takeWhile_imp hA
        simp [below, hval] at this
      · exact hB
    cases hB : splitB s ns v 0 with
    | nil => rw [hB] at hpB; cases hpB
    | cons b t =>
      refine ⟨b, rfl, ?_⟩
      rcases List.mem_cons.1 (hB ▸ hpB) with rfl | hpt
      · exact hval
      · exfalso
        have hpw : List.Pairwise (fun p q => s.valD p < s.valD q) (splitB s ns v 0) :=
          hInv.hsorted.sublist
            (((List.dropWhile_sublist _).trans (levChain_sublist s ns 0)))
        rw [hB] at hpw
        have hbp : s.valD b < s.valD p := (List.pairwise_cons.1 hpw).1 p hpt
        have hnb : ¬ s.valD b < v :=
          @splitB_head_not_below K _ _ s ns v 0 b (by rw [hB]; rfl)
        rw [hval] at hbp
        exact hnb hbp
  · rintro ⟨b, hhead, hval⟩
    have hbB : b ∈ splitB s ns v 0 := by
      cases hB : splitB s ns v 0 with
      | nil => rw [hB] at hhead; cases hhead
      | cons c t =>
        rw [hB] at hhead
        cases hhead
        simp
    have hbns : b ∈ ns := by
      have := splitB_subset s ns v 0 hbB
      rwa [levChain_zero hInv] at this
    exact List.mem_map.2 ⟨b, hbns, hval⟩

/-- `contains` answers exactly membership of `v` among the stored keys. -/
theorem contains_spec {s : skip_list K} {ns : List Nat} (hInv : Inv s ns) (v : K) :
    s.contains v = true ↔ v ∈ ns.map s.valD := by
  unfold skip_list.contains
  rw [searchPath_spec hInv v]
  simp only
  rw [show s.fwdAt (updLoc s ns v 0) 0 = (splitB s ns v 0).head? from
    updLoc_fwd hInv v 0 (by norm_num [MAX_HEIGHT])]
  cases hB : (splitB s ns v 0).head? with
  | none =>
    rw [mem_map_iff_candidate hInv v, hB]
    simp
  | some b =>
    have hbB : b ∈ splitB s ns v 0 := by
      cases hBl : splitB s ns v 0 with
      | nil => rw [hBl] at hB; cases hB
      | cons c t => rw [hBl] at hB; cases hB; simp
    have hbns : b ∈ ns := by
      have := splitB_subset s ns v 0 hbB
      rwa [levChain_zero hInv] at this
    rw [mem_map_iff_candidate hInv v, hB]
    simp only [nodeVal?_eq_valD s b (hInv.live b hbns), decide_eq_true_eq]
    constructor
    · intro h; exact ⟨b, rfl, h⟩
    · rintro ⟨b2, hb2, hv2⟩
      cases hb2
      exact hv2

/-- `find` and `contains` inspect the same candidate: `find` is `some` exactly
when `contains` is true, and the found node carries the key `v`. -/
theorem find_eq_some_iff (s : skip_list K) (v : K) :
    ((s.find v).isSome = true ↔ s.contains v = true) ∧
      (∀ p, s.find v = some p → s.nodeVal? p = some v) := by
  unfold skip_list.find skip_list.contains
  cases h1 : s.fwdAt (s.searchPath v).1 0 with
  | none => simp
  | some p =>
    cases h2 : s.nodeVal? p with
    | none => simp [h2]
    | some w =>
      by_cases hw : w = v
      · subst hw
        simp [h2]
      · simp [h2, hw]

/-! ## Bounds on the generated height -/

theorem generateRandomHeightAux_bounds (coins : Nat → Bool) :
    ∀ (fuel idx height : Nat), MAX_HEIGHT - height ≤ fuel →
      height ≤ generateRandomHeightAux coins idx height ∧
        generateRandomHeightAux coins idx height ≤ max height MAX_HEIGHT := by
  intro fuel
  induction fuel with
  | zero =>
    intro idx height hf
    rw [generateRandomHeightAux]
    have : ¬ (coins idx = true ∧ height < MAX_HEIGHT) := by
      rintro ⟨_, hlt⟩
      omega
    rw [dif_neg this]
    exact ⟨le_rfl, le_max_left _ _⟩
  | succ f ih =>
    intro idx height hf
    rw [generateRandomHeightAux]
    by_cases h : coins idx = true ∧ height < MAX_HEIGHT
    · rw [dif_pos h]
      have hrec := ih (idx + 1) (height + 1) (by omega)
      refine ⟨by omega, ?_⟩
      have h2 := hrec.2
      have : max (height + 1) MAX_HEIGHT = MAX_HEIGHT := by
        rw [max_eq_right]
        omega
      rw [this] at h2
      exact le_trans h2 (le_max_right _ _)
    · rw [dif_neg h]
      exact ⟨le_rfl, le_max_left _ _⟩

theorem generateRandomHeight_pos (coins : Nat → Bool) :
    1 ≤ generateRandomHeight coins := by
  have := generateRandomHeightAux_bounds coins (MAX_HEIGHT - 1) 0 1 le_rfl
  exact this.1

theorem generateRandomHeight_le (coins : Nat → Bool) :
    generateRandomHeight coins ≤ MAX_HEIGHT := by
  have := generateRandomHeightAux_bounds coins (MAX_HEIGHT - 1) 0 1 le_rfl
  have h2 := this.2
  have : max 1 MAX_HEIGHT = MAX_HEIGHT := by rw [max_eq_right]; norm_num [MAX_HEIGHT]
  rwa [this] at h2

/-! ## Helper lemmas for `insert` -/

theorem updLoc_high {s : skip_list K} {ns : List Nat} (hInv : Inv s ns) (v : K) (i : Nat)
    (hi : s.current_height ≤ i) : updLoc s ns v i = Loc.head := by
  unfold updLoc splitA
  rw [levChain_high hInv i hi]
  rfl

theorem foldl_set_getD (x : Option Loc) :
    ∀ (len st : Nat) (u : List (Option Loc)) (j : Nat),
      ((List.range' st len).foldl (fun u i => u.set i x) u).getD j none =
        if st ≤ j ∧ j < st + len ∧ j < u.length then x else u.getD j none := by
  intro len
  induction len with
  | zero =>
    intro st u j
    simp only [List.range', List.foldl_nil]
    have : ¬ (st ≤ j ∧ j < st + 0 ∧ j < u.length) := by omega
    rw [if_neg this]
  | succ n ih =>
    intro st u j
    rw [List.range'_succ, List.foldl_cons]
    rw [ih (st + 1) (u.set st x) j]
    by_cases hj : j = st
    · subst hj
      by_cases hlen : j < u.length
      · have h1 : ¬ (j + 1 ≤ j ∧ j < j + 1 + n ∧ j < (u.set j x).length) := by omega
        rw [if_neg h1, if_pos ⟨le_rfl, by omega, hlen⟩]
        exact getD_set_self _ _ _ _ hlen
      · have h1 : ¬ (j + 1 ≤ j ∧ j < j + 1 + n ∧ j < (u.set j x).length) := by
          simp only [List.length_set]
          omega
        have h2 : ¬ (j ≤ j ∧ j < j + (n + 1) ∧ j < u.length) := by omega
        rw [if_neg h1, if_neg h2]
        rw [List.set_eq_of_length_le (l := u) (n := j) (by omega)]
    · have hset : (u.set st x).getD j none = u.getD j none :=
        getD_set_ne _ _ _ _ _ (fun h => hj h.symm)
      simp only [List.length_set]
      rw [hset]
      by_cases hc : st + 1 ≤ j ∧ j < st + 1 + n ∧ j < u.length
      · rw [if_pos hc, if_pos ⟨by omega, by omega, hc.2.2⟩]
      · rw [if_neg hc]
        have : ¬ (st ≤ j ∧ j < st + (n + 1) ∧ j < u.length) := by
          rintro ⟨ha, hb, hcc⟩
          exact hc ⟨by omega, by omega, hcc⟩
        rw [if_neg this]

theorem searchPath_upd_length {s : skip_list K} {ns : List Nat} (hInv : Inv s ns) (v : K) :
    (s.searchPath v).2.length = MAX_HEIGHT := by
  rw [searchPath_spec hInv v]
  simp only
  rw [updFill_length]
  simp

/-- In-range condition for a forward-slot write at level `j`. -/
def locInRange (t : skip_list K) (l : Loc) (j : Nat) : Prop :=
  match l with
  | Loc.head => j < t.sentinel_forward.length
  | Loc.node p => (t.nodeAt p).isSome = true ∧ j < t.heightOf p

theorem fwdAt_setFwd_self2 (s : skip_list K) (l : Loc) (i : Nat) (q : Option Nat)
    (h : locInRange s l i) : (s.setFwd l i q).fwdAt l i = q := by
  apply fwdAt_setFwd_self
  cases l with
  | head => exact h
  | node p =>
    obtain ⟨h1, h2⟩ := h
    cases hn : s.nodeAt p with
    | none => rw [hn] at h1; cases h1
    | some n =>
      refine ⟨n, hn, ?_⟩
      unfold skip_list.heightOf at h2
      rw [hn] at h2
      exact h2

theorem locInRange_setFwd (s : skip_list K) (l l2 : Loc) (i j : Nat) (q : Option Nat)
    (h : locInRange s l j) : locInRange (s.setFwd l2 i q) l j := by
  cases l with
  | head =>
    show j < (s.setFwd l2 i q).sentinel_forward.length
    rw [setFwd_sentinel_length]
    exact h
  | node p =>
    obtain ⟨h1, h2⟩ := h
    exact ⟨by rw [nodeAt_setFwd_isSome]; exact h1, by rw [heightOf_setFwd]; exact h2⟩

theorem spliceLevels_element_count (a : Nat) (upd : List (Option Loc)) :
    ∀ (ls : List Nat) (t : skip_list K),
      (skip_list.spliceLevels a upd ls t).element_count = t.element_count := by
  intro ls
  induction ls with
  | nil => intro t; rfl
  | cons i rest ih =>
    intro t
    show (skip_list.spliceLevels a upd rest _).element_count = _
    rw [ih, setFwd_element_count, setFwd_element_count]

theorem spliceLevels_current_height (a : Nat) (upd : List (Option Loc)) :
    ∀ (ls : List Nat) (t : skip_list K),
      (skip_list.spliceLevels a upd ls t).current_height = t.current_height := by
  intro ls
  induction ls with
  | nil => intro t; rfl
  | cons i rest ih =>
    intro t
    show (skip_list.spliceLevels a upd rest _).current_height = _
    rw [ih, setFwd_current_height, setFwd_current_height]

theorem spliceLevels_arena_length (a : Nat) (upd : List (Option Loc)) :
    ∀ (ls : List Nat) (t : skip_list K),
      (skip_list.spliceLevels a upd ls t).arena.length = t.arena.length := by
  intro ls
  induction ls with
  | nil => intro t; rfl
  | cons i rest ih =>
    intro t
    show (skip_list.spliceLevels a upd rest _).arena.length = _
    rw [ih, setFwd_arena_length, setFwd_arena_length]

theorem spliceLevels_sentinel_length (a : Nat) (upd : List (Option Loc)) :
    ∀ (ls : List Nat) (t : skip_list K),
      (skip_list.spliceLevels a upd ls t).sentinel_forward.length =
        t.sentinel_forward.length := by
  intro ls
  induction ls with
  | nil => intro t; rfl
  | cons i rest ih =>
    intro t
    show (skip_list.spliceLevels a upd rest _).sentinel_forward.length = _
    rw [ih, setFwd_sentinel_length, setFwd_sentinel_length]

theorem spliceLevels_isSome (a : Nat) (upd : List (Option Loc)) :
    ∀ (ls : List Nat) (t : skip_list K) (p : Nat),
      ((skip_list.spliceLevels a upd ls t).nodeAt p).isSome = (t.nodeAt p).isSome := by
  intro ls
  induction ls with
  | nil => intro t p; rfl
  | cons i rest ih =>
    intro t p
    show ((skip_list.spliceLevels a upd rest _).nodeAt p).isSome = _
    rw [ih, nodeAt_setFwd_isSome, nodeAt_setFwd_isSome]

theorem spliceLevels_valD (a : Nat) (upd : List (Option Loc)) :
    ∀ (ls : List Nat) (t : skip_list K) (p : Nat),
      (skip_list.spliceLevels a upd ls t).valD p = t.valD p := by
  intro ls
  induction ls with
  | nil => intro t p; rfl
  | cons i rest ih =>
    intro t p
    show (skip_list.spliceLevels a upd rest _).valD p = _
    rw [ih, valD_setFwd, valD_setFwd]

theorem spliceLevels_nodeVal? (a : Nat) (upd : List (Option Loc)) :
    ∀ (ls : List Nat) (t : skip_list K) (p : Nat),
      (skip_list.spliceLevels a upd ls t).nodeVal? p = t.nodeVal? p := by
  intro ls
  induction ls with
  | nil => intro t p; rfl
  | cons i rest ih =>
    intro t p
    show (skip_list.spliceLevels a upd rest _).nodeVal? p = _
    rw [ih, nodeVal?_setFwd, nodeVal?_setFwd]

theorem spliceLevels_heightOf (a : Nat) (upd : List (Option Loc)) :
    ∀ (ls : List Nat) (t : skip_list K) (p : Nat),
      (skip_list.spliceLevels a upd ls t).heightOf p = t.heightOf p := by
  intro ls
  induction ls with
  | nil => intro t p; rfl
  | cons i rest ih =>
    intro t p
    show (skip_list.spliceLevels a upd rest _).heightOf p = _
    rw [ih, heightOf_setFwd, heightOf_setFwd]

/-- Slot-level description of the splice loop: each processed level `i` gets
`new->forward[i] = old update[i]->forward[i]` and `update[i]->forward[i] = new`;
everything else is untouched. -/
theorem spliceLevels_fwdAt (a : Nat) (upd : List (Option Loc)) :
    ∀ (ls : List Nat) (t : skip_list K),
      ls.Nodup →
      (∀ j ∈ ls, (upd.getD j none).getD Loc.head ≠ Loc.node a) →
      (∀ j ∈ ls, locInRange t ((upd.getD j none).getD Loc.head) j) →
      (∀ j ∈ ls, locInRange t (Loc.node a) j) →
      ∀ (i2 : Nat) (l : Loc),
        (skip_list.spliceLevels a upd ls t).fwdAt l i2 =
          if i2 ∈ ls then
            (if l = Loc.node a then t.fwdAt ((upd.getD i2 none).getD Loc.head) i2
             else if l = (upd.getD i2 none).getD Loc.head then some a
             else t.fwdAt l i2)
          else t.fwdAt l i2 := by
  intro ls
  induction ls with
  | nil =>
    intro t _ _ _ _ i2 l
    show t.fwdAt l i2 = _
    simp
  | cons i rest ih =>
    intro t hnd hna hinr hinra i2 l
    have hna_i : (upd.getD i none).getD Loc.head ≠ Loc.node a := hna i (by simp)
    have hinr_i : locInRange t ((upd.getD i none).getD Loc.head) i := hinr i (by simp)
    have hinra_i : locInRange t (Loc.node a) i := hinra i (by simp)
    set u : Loc := (upd.getD i none).getD Loc.head with hu
    set t2 : skip_list K := t.setFwd (Loc.node a) i (t.fwdAt u i) with ht2
    set t3 : skip_list K := t2.setFwd u i (some a) with ht3
    have hstep : skip_list.spliceLevels a upd (i :: rest) t =
        skip_list.spliceLevels a upd rest t3 := rfl
    have hrest_na : ∀ j ∈ rest, (upd.getD j none).getD Loc.head ≠ Loc.node a :=
      fun j hj => hna j (by simp [hj])
    have hrest_inr : ∀ j ∈ rest, locInRange t3 ((upd.getD j none).getD Loc.head) j :=
      fun j hj => locInRange_setFwd _ _ _ _ _ _
        (locInRange_setFwd _ _ _ _ _ _ (hinr j (by simp [hj])))
    have hrest_inra : ∀ j ∈ rest, locInRange t3 (Loc.node a) j :=
      fun j hj => locInRange_setFwd _ _ _ _ _ _
        (locInRange_setFwd _ _ _ _ _ _ (hinra j (by simp [hj])))
    rw [hstep, ih t3 (List.nodup_cons.1 hnd).2 hrest_na hrest_inr hrest_inra i2 l]
    have hinotrest : i ∉ rest := (List.nodup_cons.1 hnd).1
    by_cases hi2 : i2 ∈ rest
    · have hmem : i2 ∈ i :: rest := List.mem_cons_of_mem i hi2
      have hne : i ≠ i2 := fun h => hinotrest (h ▸ hi2)
      have hl3 : ∀ l2, t3.fwdAt l2 i2 = t.fwdAt l2 i2 := fun l2 => by
        rw [ht3, fwdAt_setFwd_ne_level _ _ _ _ _ _ hne, ht2,
          fwdAt_setFwd_ne_level _ _ _ _ _ _ hne]
      rw [if_pos hi2, if_pos hmem]
      by_cases hla : l = Loc.node a
      · rw [if_pos hla, if_pos hla, hl3]
      · rw [if_neg hla, if_neg hla]
        by_cases hlu : l = (upd.getD i2 none).getD Loc.head
        · rw [if_pos hlu, if_pos hlu]
        · rw [if_neg hlu, if_neg hlu, hl3]
    · by_cases hii : i2 = i
      · subst hii
        rw [if_neg hi2, if_pos (List.mem_cons_self i2 rest), ← hu]
        by_cases hla : l = Loc.node a
        · subst hla
          rw [if_pos rfl]
          have h1 : t3.fwdAt (Loc.node a) i2 = t2.fwdAt (Loc.node a) i2 := by
            rw [ht3]
            exact fwdAt_setFwd_ne_loc _ _ _ _ _ _ (fun h => hna_i h)
          have h2 : t2.fwdAt (Loc.node a) i2 = t.fwdAt u i2 := by
            rw [ht2]
            exact fwdAt_setFwd_self2 _ _ _ _ hinra_i
          rw [h1, h2]
        · rw [if_neg hla]
          by_cases hlu : l = u
          · subst hlu
            rw [if_pos rfl]
            rw [ht3]
            apply fwdAt_setFwd_self2
            rw [ht2]
            exact locInRange_setFwd _ _ _ _ _ _ hinr_i
          · rw [if_neg hlu]
            have h1 : t3.fwdAt l i2 = t2.fwdAt l i2 := by
              rw [ht3]
              exact fwdAt_setFwd_ne_loc _ _ _ _ _ _ (fun h => hlu h.symm)
            have h2 : t2.fwdAt l i2 = t.fwdAt l i2 := by
              rw [ht2]
              exact fwdAt_setFwd_ne_loc _ _ _ _ _ _ (fun h => hla h.symm)
            rw [h1, h2]
      · have hne2 : ¬ i2 ∈ i :: rest := by simp [hii, hi2]
        rw [if_neg hi2, if_neg hne2]
        have h1 : t3.fwdAt l i2 = t2.fwdAt l i2 := by
          rw [ht3]
          exact fwdAt_setFwd_ne_level _ _ _ _ _ _ (fun h => hii h.symm)
        have h2 : t2.fwdAt l i2 = t.fwdAt l i2 := by
          rw [ht2]
          exact fwdAt_setFwd_ne_level _ _ _ _ _ _ (fun h => hii h.symm)
        rw [h1, h2]

theorem updLoc_eq_head_or_node (s : skip_list K) (ns : List Nat) (v : K) (i : Nat) :
    updLoc s ns v i = Loc.head ∨
      ∃ q, updLoc s ns v i = Loc.node q ∧ q ∈ splitA s ns v i := by
  rcases List.eq_nil_or_concat (splitA s ns v i) with hA | ⟨xs, q, hA⟩
  · left
    unfold updLoc
    rw [hA]
    rfl
  · right
    rw [List.concat_eq_append] at hA
    exact ⟨q, by unfold updLoc; rw [hA, lastLoc_concat], by rw [hA]; simp⟩

theorem splitA_mem_ns {s : skip_list K} {ns : List Nat} {v : K} {i : Nat}
    (hInv : Inv s ns) {p : Nat} (hp : p ∈ splitA s ns v i) : p ∈ ns :=
  (levChain_sublist s ns i).subset (splitA_subset s ns v i hp)

theorem splitB_mem_ns {s : skip_list K} {ns : List Nat} {v : K} {i : Nat}
    (hInv : Inv s ns) {p : Nat} (hp : p ∈ splitB s ns v i) : p ∈ ns :=
  (levChain_sublist s ns i).subset (splitB_subset s ns v i hp)

theorem splitA_val_lt {s : skip_list K} {ns : List Nat} {v : K} {i : Nat} {p : Nat}
    (hp : p ∈ splitA s ns v i) : s.valD p < v := by
  have := List.mem_takeWhile_imp hp
  simpa [below] using this

theorem splitA_height {s : skip_list K} {ns : List Nat} {v : K} {i : Nat} {p : Nat}
    (hp : p ∈ splitA s ns v i) : i < s.heightOf p := by
  have := splitA_subset s ns v i hp
  unfold levChain at this
  have := List.of_mem_filter this
  simpa using this

theorem splitB_height {s : skip_list K} {ns : List Nat} {v : K} {i : Nat} {p : Nat}
    (hp : p ∈ splitB s ns v i) : i < s.heightOf p := by
  have := splitB_subset s ns v i hp
  unfold levChain at this
  have := List.of_mem_filter this
  simpa using this

theorem splitB_val_ge {s : skip_list K} {ns : List Nat} (hInv : Inv s ns) (v : K) (i : Nat) :
    ∀ b ∈ splitB s ns v i, v ≤ s.valD b := by
  intro b hb
  cases hB : splitB s ns v i with
  | nil => rw [hB] at hb; cases hb
  | cons b0 t =>
    have h0 : ¬ s.valD b0 < v :=
      @splitB_head_not_below K _ _ s ns v i b0 (by rw [hB]; rfl)
    rw [hB] at hb
    rcases List.mem_cons.1 hb with rfl | hbt
    · exact le_of_not_lt h0
    · have hpw : List.Pairwise (fun p q => s.valD p < s.valD q) (splitB s ns v i) :=
        hInv.hsorted.sublist ((List.dropWhile_sublist _).trans (levChain_sublist s ns i))
      rw [hB] at hpw
      have h1 : s.valD b0 < s.valD b := (List.pairwise_cons.1 hpw).1 b hbt
      exact le_of_lt (lt_of_le_of_lt (le_of_not_lt h0) h1)

theorem splitA_filter {s : skip_list K} {ns : List Nat} (hInv : Inv s ns) (v : K) (i : Nat) :
    splitA s ns v i = (splitA s ns v 0).filter fun p => decide (i < s.heightOf p) := by
  unfold splitA
  rw [sorted_takeWhile_eq_filter s v _ (levChain_pairwise hInv i),
    sorted_takeWhile_eq_filter s v _ (levChain_pairwise hInv 0),
    levChain_zero hInv]
  unfold levChain
  rw [List.filter_filter, List.filter_filter]
  apply List.filter_congr
  intro p _
  rw [Bool.and_comm]

theorem splitB_filter {s : skip_list K} {ns : List Nat} (hInv : Inv s ns) (v : K) (i : Nat) :
    splitB s ns v i = (splitB s ns v 0).filter fun p => decide (i < s.heightOf p) := by
  unfold splitB
  rw [sorted_dropWhile_eq_filter s v _ (levChain_pairwise hInv i),
    sorted_dropWhile_eq_filter s v _ (levChain_pairwise hInv 0),
    levChain_zero hInv]
  unfold levChain
  rw [List.filter_filter, List.filter_filter]
  apply List.filter_congr
  intro p _
  rw [Bool.and_comm]

theorem ns_lt_arena {s : skip_list K} {ns : List Nat} (hInv : Inv s ns) :
    ∀ p ∈ ns, p < s.arena.length := fun p hp => live_lt_arena s p (hInv.live p hp)

/-- Rebuilding one level chain after the splice: the new node `a` is linked
right after the `< v` prefix `A` of the old level chain `A ++ B`. -/
theorem chainOk_insert_level (s s' : skip_list K) (i : Nat) (A B : List Nat) (a : Nat)
    (hnodupA : A.Nodup)
    (hentry : s'.fwdAt Loc.head i =
      if lastLoc Loc.head A = Loc.head then some a else s.fwdAt Loc.head i)
    (hAfwd : ∀ p ∈ A, Loc.node p ≠ lastLoc Loc.head A → s'.nodeFwd p i = s.nodeFwd p i)
    (hufwd : ∀ q, lastLoc Loc.head A = Loc.node q → s'.nodeFwd q i = some a)
    (hafwd : s'.nodeFwd a i = s.fwdAt (lastLoc Loc.head A) i)
    (hBfwd : ∀ p ∈ B, s'.nodeFwd p i = s.nodeFwd p i)
    (hch : s.chainOk i (s.fwdAt Loc.head i) (A ++ B)) :
    s'.chainOk i (s'.fwdAt Loc.head i) (A ++ a :: B) := by
  rcases List.eq_nil_or_concat A with rfl | ⟨xs, q, hA⟩
  · rw [lastLoc_nil, if_pos rfl] at hentry
    rw [lastLoc_nil] at hafwd
    show s'.chainOk i (s'.fwdAt Loc.head i) (a :: B)
    refine ⟨hentry, ?_⟩
    rw [hafwd]
    exact chainOk_congr hBfwd hch
  · rw [List.concat_eq_append] at hA
    subst hA
    have hu : lastLoc Loc.head (xs ++ [q]) = Loc.node q := lastLoc_concat _ _ _
    rw [hu] at hentry hafwd
    rw [if_neg (by simp)] at hentry
    have hqxs : q ∉ xs := by
      have := hnodupA
      rw [List.nodup_append] at this
      intro hq
      exact this.2.2 hq (by simp)
    rw [chainOk_iff_chainSeg, List.append_assoc] at hch
    obtain ⟨om1, hseg_xs, hseg_rest⟩ := (chainSeg_append_iff _ _ _ _ _ _).1 hch
    obtain ⟨om2, hseg_q, hseg_B⟩ := (chainSeg_append_iff _ _ _ _ _ _).1 hseg_rest
    have hom1 : om1 = some q := hseg_q.1
    have hom2 : om2 = s.nodeFwd q i := hseg_q.2
    rw [chainOk_iff_chainSeg, List.append_assoc]
    refine (chainSeg_append_iff _ _ _ _ _ _).2 ⟨om1, ?_, ?_⟩
    · rw [hentry]
      apply chainSeg_congr
        (fun p hp => hAfwd p (by simp [hp]) (by rw [hu]; simp; intro he; subst he; exact hqxs hp))
      exact hseg_xs
    · refine (chainSeg_append_iff _ _ _ _ _ _).2 ⟨some a, ?_, ?_⟩
      · exact ⟨hom1, (hufwd q hu).symm⟩
      · refine ⟨rfl, ?_⟩
        show s'.chainSeg i (s'.nodeFwd a i) B none
        rw [hafwd]
        show s'.chainSeg i (s.nodeFwd q i) B none
        rw [← hom2]
        exact chainSeg_congr hBfwd hseg_B

theorem head?_mem_self {α : Type} {l : List α} {x : α} (h : l.head? = some x) : x ∈ l := by
  cases l with
  | nil => cases h
  | cons a t =>
    cases h
    simp

theorem getD_replicate_self {α : Type} (d : α) (n j : Nat) :
    (List.replicate n d).getD j d = d := by
  rw [List.getD_eq_getElem?_getD, List.getElem?_replicate]
  split <;> rfl

theorem candidate_eq {s : skip_list K} {ns : List Nat} (hInv : Inv s ns) (v : K) :
    s.fwdAt (s.searchPath v).1 0 = (splitB s ns v 0).head? := by
  rw [searchPath_spec hInv v]
  exact updLoc_fwd hInv v 0 (by norm_num [MAX_HEIGHT])

/-- Inserting a key already present aborts and leaves the state untouched. -/
theorem insert_dup {s : skip_list K} {ns : List Nat} (hInv : Inv s ns) (v : K)
    (coins : Nat → Bool) (hv : v ∈ ns.map s.valD) :
    s.insert v coins = (s, false) := by
  obtain ⟨b, hb, hvb⟩ := (mem_map_iff_candidate hInv v).1 hv
  have hbmem : b ∈ ns := by
    have := splitB_subset s ns v 0 (head?_mem_self hb)
    rwa [levChain_zero hInv] at this
  have hcond : (s.fwdAt (s.searchPath v).1 0).bind s.nodeVal? = some v := by
    rw [candidate_eq hInv v, hb]
    simp [nodeVal?_eq_valD s b (hInv.live b hbmem), hvb]
  simp only [skip_list.insert]
  rw [if_pos hcond]

/-- An insert that reports false did not modify the state. -/
theorem insert_false_unchanged (s : skip_list K) (v : K) (coins : Nat → Bool)
    (h : (s.insert v coins).2 = false) : (s.insert v coins).1 = s := by
  by_cases hc : (s.fwdAt (s.searchPath v).1 0).bind s.nodeVal? = some v
  · have he : s.insert v coins = (s, false) := by
      simp only [skip_list.insert]
      rw [if_pos hc]
    rw [he]
  · exfalso
    have ht : (s.insert v coins).2 = true := by
      simp only [skip_list.insert]
      rw [if_neg hc]
    rw [h] at ht
    cases ht

/-- Core of a successful `insert`: with the update path reading as the descent
lemma describes, the spliced state satisfies the invariant on
`A ++ new :: B` and all bookkeeping facts. -/
theorem insert_core {s : skip_list K} {ns : List Nat} (hInv : Inv s ns) (v : K)
    (nh : Nat) (upd2 : List (Option Loc)) (h1nh : 1 ≤ nh) (hnh16 : nh ≤ MAX_HEIGHT)
    (hupdget : ∀ j, j < nh → (upd2.getD j none).getD Loc.head = updLoc s ns v j)
    (hv : v ∉ ns.map s.valD) (s1 s2 : skip_list K)
    (hs1 : s1 = { s with
                  arena := s.arena ++ [some ⟨v, List.replicate nh none⟩],
                  current_height := if s.current_height < nh then nh
                                    else s.current_height })
    (hs2 : s2 = skip_list.spliceLevels s.arena.length upd2 (List.range nh) s1) :
    Inv { s2 with element_count := s2.element_count + 1 }
        (splitA s ns v 0 ++ s.arena.length :: splitB s ns v 0) ∧
    s2.element_count = s.element_count ∧
    s2.current_height = max s.current_height nh ∧
    s2.valD s.arena.length = v ∧
    s2.heightOf s.arena.length = nh ∧
    (∀ p, p ≠ s.arena.length →
      s2.valD p = s.valD p ∧ s2.heightOf p = s.heightOf p ∧
      (s2.nodeAt p).isSome = (s.nodeAt p).isSome) := by
  have hcurle := hInv.curH_le
  have ha_not_ns : ∀ p ∈ ns, p ≠ s.arena.length := by
    intro p hp he
    have := ns_lt_arena hInv p hp
    omega
  -- the intermediate state s1
  have hs1_sent : s1.sentinel_forward = s.sentinel_forward := by rw [hs1]
  have hs1_count : s1.element_count = s.element_count := by rw [hs1]
  have hs1_cur : s1.current_height =
      if s.current_height < nh then nh else s.current_height := by rw [hs1]
  have hs1_nodeAt_old : ∀ p, p ≠ s.arena.length → s1.nodeAt p = s.nodeAt p := by
    intro p hp
    rw [hs1]
    show (s.arena ++ [some (SkipNode.mk v (List.replicate nh none))]).getD p none =
      s.arena.getD p none
    rcases Nat.lt_or_ge p s.arena.length with h | h
    · rw [List.getD_eq_getElem?_getD, List.getD_eq_getElem?_getD,
        List.getElem?_append_left h]
    · have h2 : s.arena.length < p := lt_of_le_of_ne h (Ne.symm hp)
      rw [List.getD_eq_getElem?_getD, List.getD_eq_getElem?_getD,
        List.getElem?_eq_none (l := s.arena) (by omega),
        List.getElem?_eq_none (by simp; omega)]
  have hs1_nodeAt_a : s1.nodeAt s.arena.length =
      some ⟨v, List.replicate nh none⟩ := by
    rw [hs1]
    show (s.arena ++ [some (SkipNode.mk v (List.replicate nh none))]).getD
      s.arena.length none = _
    rw [List.getD_eq_getElem?_getD, List.getElem?_append_right le_rfl]
    simp
  have hs1_valD : ∀ p, p ≠ s.arena.length → s1.valD p = s.valD p := by
    intro p hp
    unfold skip_list.valD
    rw [hs1_nodeAt_old p hp]
  have hs1_h : ∀ p, p ≠ s.arena.length → s1.heightOf p = s.heightOf p := by
    intro p hp
    unfold skip_list.heightOf
    rw [hs1_nodeAt_old p hp]
  have hs1_isSome : ∀ p, p ≠ s.arena.length →
      (s1.nodeAt p).isSome = (s.nodeAt p).isSome := by
    intro p hp
    rw [hs1_nodeAt_old p hp]
  have hs1_valD_a : s1.valD s.arena.length = v := by
    unfold skip_list.valD
    rw [hs1_nodeAt_a]
    rfl
  have hs1_h_a : s1.heightOf s.arena.length = nh := by
    unfold skip_list.heightOf
    rw [hs1_nodeAt_a]
    simp
  have hs1_fwd_old : ∀ l j, l ≠ Loc.node s.arena.length → s1.fwdAt l j = s.fwdAt l j := by
    intro l j hl
    cases l with
    | head => rw [fwdAt_head, fwdAt_head, hs1_sent]
    | node p =>
      have hp : p ≠ s.arena.length := by
        intro he
        exact hl (by rw [he])
      rw [fwdAt_node, fwdAt_node]
      unfold skip_list.nodeFwd
      rw [hs1_nodeAt_old p hp]
  have hs1_fwd_a : ∀ j, s1.fwdAt (Loc.node s.arena.length) j = none := by
    intro j
    rw [fwdAt_node]
    unfold skip_list.nodeFwd
    rw [hs1_nodeAt_a]
    exact getD_replicate_self none nh j
  -- preconditions of the splice description
  have hupd_ne_a : ∀ j ∈ List.range nh,
      (upd2.getD j none).getD Loc.head ≠ Loc.node s.arena.length := by
    intro j hj
    rw [hupdget j (List.mem_range.1 hj)]
    rcases updLoc_eq_head_or_node s ns v j with h | ⟨q, hq, hqA⟩
    · rw [h]
      simp
    · rw [hq]
      intro he
      have hqq : q = s.arena.length := by injection he
      have := ns_lt_arena hInv q (splitA_mem_ns hInv hqA)
      omega
  have hupd_inr : ∀ j ∈ List.range nh,
      locInRange s1 ((upd2.getD j none).getD Loc.head) j := by
    intro j hj
    have hjnh := List.mem_range.1 hj
    rw [hupdget j hjnh]
    rcases updLoc_eq_head_or_node s ns v j with h | ⟨q, hq, hqA⟩
    · rw [h]
      show j < s1.sentinel_forward.length
      rw [hs1_sent, hInv.hflen]
      omega
    · rw [hq]
      have hqns := splitA_mem_ns hInv hqA
      have hqa : q ≠ s.arena.length := ha_not_ns q hqns
      refine ⟨?_, ?_⟩
      · rw [hs1_isSome q hqa]
        exact hInv.live q hqns
      · rw [hs1_h q hqa]
        exact splitA_height hqA
  have hupd_inra : ∀ j ∈ List.range nh, locInRange s1 (Loc.node s.arena.length) j := by
    intro j hj
    refine ⟨by rw [hs1_nodeAt_a]; rfl, ?_⟩
    rw [hs1_h_a]
    exact List.mem_range.1 hj
  have hfwd2 := spliceLevels_fwdAt s.arena.length upd2 (List.range nh) s1
    (List.nodup_range nh) hupd_ne_a hupd_inr hupd_inra
  rw [← hs2] at hfwd2
  -- metadata of s2
  have hs2_count : s2.element_count = s.element_count := by
    rw [hs2, spliceLevels_element_count, hs1_count]
  have hs2_cur : s2.current_height =
      if s.current_height < nh then nh else s.current_height := by
    rw [hs2, spliceLevels_current_height, hs1_cur]
  have hs2_sentlen : s2.sentinel_forward.length = s.sentinel_forward.length := by
    rw [hs2, spliceLevels_sentinel_length, hs1_sent]
  have hs2_isSome : ∀ p, (s2.nodeAt p).isSome = (s1.nodeAt p).isSome := by
    intro p
    rw [hs2]
    exact spliceLevels_isSome _ _ _ _ _
  have hs2_valD : ∀ p, s2.valD p = s1.valD p := by
    intro p
    rw [hs2]
    exact spliceLevels_valD _ _ _ _ _
  have hs2_h : ∀ p, s2.heightOf p = s1.heightOf p := by
    intro p
    rw [hs2]
    exact spliceLevels_heightOf _ _ _ _ _
  have hs2_valD_old : ∀ p, p ≠ s.arena.length → s2.valD p = s.valD p := by
    intro p hp
    rw [hs2_valD, hs1_valD p hp]
  have hs2_h_old : ∀ p, p ≠ s.arena.length → s2.heightOf p = s.heightOf p := by
    intro p hp
    rw [hs2_h, hs1_h p hp]
  have hs2_isSome_old : ∀ p, p ≠ s.arena.length →
      (s2.nodeAt p).isSome = (s.nodeAt p).isSome := by
    intro p hp
    rw [hs2_isSome, hs1_isSome p hp]
  have hcurmax : (if s.current_height < nh then nh else s.current_height) =
      max s.current_height nh := by
    rcases Nat.lt_or_ge s.current_height nh with h | h
    · rw [if_pos h, max_eq_right (le_of_lt h)]
    · rw [if_neg (not_lt.2 h), max_eq_left h]
  refine ⟨?_, hs2_count, by rw [hs2_cur, hcurmax], by rw [hs2_valD, hs1_valD_a],
    by rw [hs2_h, hs1_h_a],
    fun p hp => ⟨hs2_valD_old p hp, hs2_h_old p hp, hs2_isSome_old p hp⟩⟩
  have hAB : splitA s ns v 0 ++ splitB s ns v 0 = ns := by
    rw [splitA_append_splitB, levChain_zero hInv]
  have hmemA0 : ∀ p ∈ splitA s ns v 0, p ∈ ns := fun p hp => splitA_mem_ns hInv hp
  have hmemB0 : ∀ p ∈ splitB s ns v 0, p ∈ ns := fun p hp => splitB_mem_ns hInv hp
  have hvala : s2.valD s.arena.length = v := by rw [hs2_valD, hs1_valD_a]
  have hha : s2.heightOf s.arena.length = nh := by rw [hs2_h, hs1_h_a]
  -- the level chains of the spliced state
  have hlev : ∀ i, levChain s2 (splitA s ns v 0 ++ s.arena.length :: splitB s ns v 0) i =
      splitA s ns v i ++
        ((if i < nh then [s.arena.length] else []) ++ splitB s ns v i) := by
    intro i
    unfold levChain
    rw [List.filter_append, List.filter_cons]
    have hfA : (splitA s ns v 0).filter (fun p => decide (i < s2.heightOf p)) =
        splitA s ns v i := by
      rw [splitA_filter hInv v i]
      apply List.filter_congr
      intro p hp
      rw [hs2_h_old p (ha_not_ns p (hmemA0 p hp))]
    have hfB : (splitB s ns v 0).filter (fun p => decide (i < s2.heightOf p)) =
        splitB s ns v i := by
      rw [splitB_filter hInv v i]
      apply List.filter_congr
      intro p hp
      rw [hs2_h_old p (ha_not_ns p (hmemB0 p hp))]
    rw [hfA, hfB, hha]
    by_cases hi : i < nh
    · rw [if_pos (by simp [hi]), if_pos hi]
      rfl
    · rw [if_neg (by simp [hi]), if_neg hi]
      rfl
  have hchains2 : ∀ i, i < MAX_HEIGHT → s2.chainOk i (s2.sentinel_forward.getD i none)
      (splitA s ns v i ++
        ((if i < nh then [s.arena.length] else []) ++ splitB s ns v i)) := by
    intro i hi
    have hchs : s.chainOk i (s.fwdAt Loc.head i) (splitA s ns v i ++ splitB s ns v i) := by
      rw [splitA_append_splitB, fwdAt_head]
      exact hInv.hchains i hi
    by_cases hinh : i < nh
    · rw [if_pos hinh]
      have hiRange : i ∈ List.range nh := List.mem_range.2 hinh
      have hulocdef : lastLoc Loc.head (splitA s ns v i) = updLoc s ns v i := rfl
      have hulocA : (upd2.getD i none).getD Loc.head = updLoc s ns v i := hupdget i hinh
      have hnodupA : (splitA s ns v i).Nodup :=
        ((List.takeWhile_sublist _).trans (levChain_sublist s ns i)).nodup hInv.nodup
      have hupdne_a : updLoc s ns v i ≠ Loc.node s.arena.length := by
        rcases updLoc_eq_head_or_node s ns v i with hcase | ⟨q, hcase, hqA⟩
        · rw [hcase]
          simp
        · rw [hcase]
          intro he
          have hqq : q = s.arena.length := by injection he
          have := ns_lt_arena hInv q (splitA_mem_ns hInv hqA)
          omega
      have hentry : s2.fwdAt Loc.head i =
          if lastLoc Loc.head (splitA s ns v i) = Loc.head then some s.arena.length
          else s.fwdAt Loc.head i := by
        have hd := hfwd2 i Loc.head
        rw [if_pos hiRange, if_neg (by simp), hulocA] at hd
        rw [hulocdef]
        rcases updLoc_eq_head_or_node s ns v i with hcase | ⟨q, hcase, hqA⟩
        · rw [hcase] at hd ⊢
          rw [if_pos rfl] at hd ⊢
          exact hd
        · rw [hcase] at hd ⊢
          rw [if_neg (by simp)] at hd ⊢
          rw [hd]
          exact hs1_fwd_old Loc.head i (by simp)
      have hAfwd : ∀ p ∈ splitA s ns v i,
          Loc.node p ≠ lastLoc Loc.head (splitA s ns v i) →
          s2.nodeFwd p i = s.nodeFwd p i := by
        intro p hp hne
        rw [hulocdef] at hne
        have hpns := splitA_mem_ns hInv hp
        have hpa : p ≠ s.arena.length := ha_not_ns p hpns
        have hd := hfwd2 i (Loc.node p)
        rw [if_pos hiRange, if_neg (by simp [hpa]), hulocA,
          if_neg (fun h => hne h)] at hd
        rw [← fwdAt_node, ← fwdAt_node, hd]
        exact hs1_fwd_old (Loc.node p) i (by simp [hpa])
      have hufwd : ∀ q, lastLoc Loc.head (splitA s ns v i) = Loc.node q →
          s2.nodeFwd q i = some s.arena.length := by
        intro q hq
        rw [hulocdef] at hq
        have hqA : q ∈ splitA s ns v i := by
          rcases updLoc_eq_head_or_node s ns v i with hcase | ⟨q2, hcase, hq2A⟩
          · rw [hcase] at hq
            cases hq
          · rw [hcase] at hq
            have : q2 = q := by injection hq
            rw [← this]
            exact hq2A
        have hqns := splitA_mem_ns hInv hqA
        have hqa : q ≠ s.arena.length := ha_not_ns q hqns
        have hd := hfwd2 i (Loc.node q)
        rw [if_pos hiRange, if_neg (by simp [hqa]), hulocA, if_pos hq.symm] at hd
        rw [← fwdAt_node, hd]
      have hafwd : s2.nodeFwd s.arena.length i =
          s.fwdAt (lastLoc Loc.head (splitA s ns v i)) i := by
        rw [hulocdef]
        have hd := hfwd2 i (Loc.node s.arena.length)
        rw [if_pos hiRange, if_pos rfl, hulocA] at hd
        rw [← fwdAt_node, hd]
        exact hs1_fwd_old _ i hupdne_a
      have hBfwd : ∀ p ∈ splitB s ns v i, s2.nodeFwd p i = s.nodeFwd p i := by
        intro p hp
        have hpns := splitB_mem_ns hInv hp
        have hpa : p ≠ s.arena.length := ha_not_ns p hpns
        have hpne : Loc.node p ≠ updLoc s ns v i := by
          rcases updLoc_eq_head_or_node s ns v i with hcase | ⟨q, hcase, hqA⟩
          · rw [hcase]
            simp
          · rw [hcase]
            have hnodupAB : (splitA s ns v i ++ splitB s ns v i).Nodup := by
              rw [splitA_append_splitB]
              exact (levChain_sublist s ns i).nodup hInv.nodup
            have hdis := (List.nodup_append.1 hnodupAB).2.2
            intro he
            have : p = q := by injection he
            subst this
            exact hdis hqA hp
        have hd := hfwd2 i (Loc.node p)
        rw [if_pos hiRange, if_neg (by simp [hpa]), hulocA, if_neg (fun h => hpne h)] at hd
        rw [← fwdAt_node, ← fwdAt_node, hd]
        exact hs1_fwd_old (Loc.node p) i (by simp [hpa])
      have hres := chainOk_insert_level s s2 i (splitA s ns v i) (splitB s ns v i)
        s.arena.length hnodupA hentry hAfwd hufwd hafwd hBfwd hchs
      rw [fwdAt_head] at hres
      exact hres
    · rw [if_neg hinh]
      have hiNot : i ∉ List.range nh := by
        rw [List.mem_range]
        exact hinh
      have hentry : s2.fwdAt Loc.head i = s.fwdAt Loc.head i := by
        have hd := hfwd2 i Loc.head
        rw [if_neg hiNot] at hd
        rw [hd]
        exact hs1_fwd_old Loc.head i (by simp)
      have hcongr : ∀ p ∈ splitA s ns v i ++ splitB s ns v i,
          s2.nodeFwd p i = s.nodeFwd p i := by
        intro p hp
        have hpns : p ∈ ns := by
          rw [hAB] at *
          rcases List.mem_append.1 hp with h | h
          · exact splitA_mem_ns hInv h
          · exact splitB_mem_ns hInv h
        have hpa : p ≠ s.arena.length := ha_not_ns p hpns
        have hd := hfwd2 i (Loc.node p)
        rw [if_neg hiNot] at hd
        rw [← fwdAt_node, ← fwdAt_node, hd]
        exact hs1_fwd_old (Loc.node p) i (by simp [hpa])
      show s2.chainOk i (s2.sentinel_forward.getD i none)
        (splitA s ns v i ++ splitB s ns v i)
      have h0 : s.chainOk i (s.sentinel_forward.getD i none)
          (splitA s ns v i ++ splitB s ns v i) := by
        rw [splitA_append_splitB]
        exact hInv.hchains i hi
      have h1 := chainOk_congr hcongr h0
      rw [← fwdAt_head, ← hentry, fwdAt_head] at h1
      exact h1
  have hsubA : List.Sublist (splitA s ns v 0) ns := by
    have h : List.Sublist (splitA s ns v 0) (levChain s ns 0) :=
      List.takeWhile_sublist _
    rw [levChain_zero hInv] at h
    exact h
  have hsubB : List.Sublist (splitB s ns v 0) ns := by
    have h : List.Sublist (splitB s ns v 0) (levChain s ns 0) :=
      List.dropWhile_sublist _
    rw [levChain_zero hInv] at h
    exact h
  have hsorted2 : List.Pairwise (fun p q => s2.valD p < s2.valD q)
      (splitA s ns v 0 ++ s.arena.length :: splitB s ns v 0) := by
    rw [List.pairwise_append]
    refine ⟨?_, ?_, ?_⟩
    · refine (hInv.hsorted.sublist hsubA).imp_of_mem ?_
      intro x y hx hy hr
      rw [hs2_valD_old x (ha_not_ns x (hmemA0 x hx)),
        hs2_valD_old y (ha_not_ns y (hmemA0 y hy))]
      exact hr
    · rw [List.pairwise_cons]
      refine ⟨?_, ?_⟩
      · intro b hb
        rw [hvala, hs2_valD_old b (ha_not_ns b (hmemB0 b hb))]
        have hge := splitB_val_ge hInv v 0 b hb
        have hne : s.valD b ≠ v := fun he =>
          hv (List.mem_map.2 ⟨b, hmemB0 b hb, he⟩)
        exact lt_of_le_of_ne hge (Ne.symm hne)
      · refine (hInv.hsorted.sublist hsubB).imp_of_mem ?_
        intro x y hx hy hr
        rw [hs2_valD_old x (ha_not_ns x (hmemB0 x hx)),
          hs2_valD_old y (ha_not_ns y (hmemB0 y hy))]
        exact hr
    · intro x hx y hy
      have hxv : s.valD x < v := splitA_val_lt hx
      rw [hs2_valD_old x (ha_not_ns x (hmemA0 x hx))]
      rcases List.mem_cons.1 hy with rfl | hyB
      · rw [hvala]
        exact hxv
      · rw [hs2_valD_old y (ha_not_ns y (hmemB0 y hyB))]
        exact lt_of_lt_of_le hxv (splitB_val_ge hInv v 0 y hyB)
  refine ⟨?_, ?_, ?_, ?_, ?_, ?_, ?_⟩
  · show s2.sentinel_forward.length = MAX_HEIGHT
    rw [hs2_sentlen, hInv.hflen]
  · intro p hp
    show (s2.nodeAt p).isSome = true
    rcases List.mem_append.1 hp with hA | hC
    · rw [hs2_isSome_old p (ha_not_ns p (hmemA0 p hA))]
      exact hInv.live p (hmemA0 p hA)
    · rcases List.mem_cons.1 hC with rfl | hB
      · rw [hs2_isSome, hs1_nodeAt_a]
        rfl
      · rw [hs2_isSome_old p (ha_not_ns p (hmemB0 p hB))]
        exact hInv.live p (hmemB0 p hB)
  · intro p hp
    show 1 ≤ s2.heightOf p ∧ s2.heightOf p ≤ MAX_HEIGHT
    rcases List.mem_append.1 hp with hA | hC
    · rw [hs2_h_old p (ha_not_ns p (hmemA0 p hA))]
      exact hInv.hhts p (hmemA0 p hA)
    · rcases List.mem_cons.1 hC with rfl | hB
      · rw [hha]
        exact ⟨h1nh, hnh16⟩
      · rw [hs2_h_old p (ha_not_ns p (hmemB0 p hB))]
        exact hInv.hhts p (hmemB0 p hB)
  · show s2.current_height =
      maxHeightOf { s2 with element_count := s2.element_count + 1 }
        (splitA s ns v 0 ++ s.arena.length :: splitB s ns v 0)
    have e1 : maxHeightOf { s2 with element_count := s2.element_count + 1 }
        (splitA s ns v 0 ++ s.arena.length :: splitB s ns v 0) =
        maxHeightOf s2 (splitA s ns v 0 ++ s.arena.length :: splitB s ns v 0) :=
      maxHeightOf_congr (fun p _ => rfl)
    have e2 : maxHeightOf s2 (splitA s ns v 0 ++ s.arena.length :: splitB s ns v 0) =
        maxHeightOf s2 (s.arena.length :: (splitA s ns v 0 ++ splitB s ns v 0)) :=
      maxHeightOf_perm s2 List.perm_middle
    have e3 : maxHeightOf s2 (s.arena.length :: (splitA s ns v 0 ++ splitB s ns v 0)) =
        max (s2.heightOf s.arena.length)
          (maxHeightOf s2 (splitA s ns v 0 ++ splitB s ns v 0)) := rfl
    have e4 : maxHeightOf s2 (splitA s ns v 0 ++ splitB s ns v 0) =
        maxHeightOf s (splitA s ns v 0 ++ splitB s ns v 0) :=
      maxHeightOf_congr (fun p hp => hs2_h_old p (ha_not_ns p (hAB ▸ hp)))
    rw [e1, e2, e3, e4, hAB, ← hInv.hcur, hha, hs2_cur, hcurmax]
    exact Nat.max_comm _ _
  · intro i hi
    have h1 : levChain { s2 with element_count := s2.element_count + 1 }
        (splitA s ns v 0 ++ s.arena.length :: splitB s ns v 0) i =
        levChain s2 (splitA s ns v 0 ++ s.arena.length :: splitB s ns v 0) i := by
      unfold levChain
      apply List.filter_congr
      intro p _
      rfl
    rw [h1, hlev i]
    show skip_list.chainOk { s2 with element_count := s2.element_count + 1 } i
      (s2.sentinel_forward.getD i none)
      (splitA s ns v i ++ ((if i < nh then [s.arena.length] else []) ++ splitB s ns v i))
    exact @chainOk_congr K _ _ s2 { s2 with element_count := s2.element_count + 1 }
      i _ (fun p _ => rfl) _ (hchains2 i hi)
  · exact hsorted2.imp_of_mem (fun {x y} _ _ h => h)
  · show s2.element_count + 1 =
      (splitA s ns v 0 ++ s.arena.length :: splitB s ns v 0).length
    rw [hs2_count, hInv.hcount, List.length_append, List.length_cons]
    have : (splitA s ns v 0).length + (splitB s ns v 0).length = ns.length := by
      rw [← List.length_append, hAB]
    omega

/-- Specification of a successful `insert`: returns true, preserves the
invariant with the new node placed between the `< v` prefix and `≥ v` suffix,
increments the count, and adjusts `current_height` to the new node's height
when taller. -/
theorem insert_spec_new {s : skip_list K} {ns : List Nat} (hInv : Inv s ns) (v : K)
    (coins : Nat → Bool) (hv : v ∉ ns.map s.valD) :
    (s.insert v coins).2 = true ∧
    Inv (s.insert v coins).1 (splitA s ns v 0 ++ s.arena.length :: splitB s ns v 0) ∧
    (s.insert v coins).1.element_count = s.element_count + 1 ∧
    (s.insert v coins).1.current_height =
      max s.current_height (generateRandomHeight coins) ∧
    (s.insert v coins).1.valD s.arena.length = v ∧
    (s.insert v coins).1.heightOf s.arena.length = generateRandomHeight coins ∧
    (∀ p, p ≠ s.arena.length →
      (s.insert v coins).1.valD p = s.valD p ∧
      (s.insert v coins).1.heightOf p = s.heightOf p ∧
      ((s.insert v coins).1.nodeAt p).isSome = (s.nodeAt p).isSome) := by
  have hcond : ¬ ((s.fwdAt (s.searchPath v).1 0).bind s.nodeVal? = some v) := by
    rw [candidate_eq hInv v]
    cases hB : (splitB s ns v 0).head? with
    | none => simp
    | some b =>
      have hbns : b ∈ ns := by
        have := splitB_subset s ns v 0 (head?_mem_self hB)
        rwa [levChain_zero hInv] at this
      intro he
      have h2 : s.nodeVal? b = some v := he
      rw [nodeVal?_eq_valD s b (hInv.live b hbns)] at h2
      have h3 : s.valD b = v := by injection h2
      exact hv ((mem_map_iff_candidate hInv v).2 ⟨b, hB, h3⟩)
  have h1nh := generateRandomHeight_pos coins
  have hnh16 := generateRandomHeight_le coins
  have hupdget : ∀ j, j < generateRandomHeight coins →
      (((if s.current_height < generateRandomHeight coins then
          (List.range' s.current_height
            (generateRandomHeight coins - s.current_height)).foldl
            (fun u i => u.set i (some Loc.head)) (s.searchPath v).2
         else (s.searchPath v).2).getD j none).getD Loc.head) = updLoc s ns v j := by
    intro j hj
    by_cases hcn : s.current_height < generateRandomHeight coins
    · rw [if_pos hcn, foldl_set_getD]
      by_cases hjc : j < s.current_height
      · rw [if_neg (by omega)]
        rw [searchPath_upd_getD hInv v j, if_pos hjc]
        rfl
      · rw [if_pos ⟨by omega, by omega, by
          rw [searchPath_upd_length hInv v]
          show j < MAX_HEIGHT
          omega⟩]
        rw [Option.getD_some]
        exact (updLoc_high hInv v j (by omega)).symm
    · rw [if_neg hcn]
      have hjc : j < s.current_height := by omega
      rw [searchPath_upd_getD hInv v j, if_pos hjc]
      rfl
  have hins : s.insert v coins =
      ({ skip_list.spliceLevels s.arena.length
          (if s.current_height < generateRandomHeight coins then
            (List.range' s.current_height
              (generateRandomHeight coins - s.current_height)).foldl
              (fun u i => u.set i (some Loc.head)) (s.searchPath v).2
           else (s.searchPath v).2)
          (List.range (generateRandomHeight coins))
          { s with
            arena := s.arena ++
              [some ⟨v, List.replicate (generateRandomHeight coins) none⟩],
            current_height := if s.current_height < generateRandomHeight coins then
                generateRandomHeight coins
              else s.current_height } with
        element_count := (skip_list.spliceLevels s.arena.length
          (if s.current_height < generateRandomHeight coins then
            (List.range' s.current_height
              (generateRandomHeight coins - s.current_height)).foldl
              (fun u i => u.set i (some Loc.head)) (s.searchPath v).2
           else (s.searchPath v).2)
          (List.range (generateRandomHeight coins))
          { s with
            arena := s.arena ++
              [some ⟨v, List.replicate (generateRandomHeight coins) none⟩],
            current_height := if s.current_height < generateRandomHeight coins then
                generateRandomHeight coins
              else s.current_height }).element_count + 1 }, true) := by
    simp only [skip_list.insert]
    rw [if_neg hcond]
  have hcore := insert_core hInv v (generateRandomHeight coins) _ h1nh hnh16 hupdget hv
    _ _ rfl rfl
  rw [hins]
  exact ⟨rfl, hcore.1, by rw [show ∀ x : skip_list K, ({ x with
      element_count := x.element_count + 1 } : skip_list K).element_count =
      x.element_count + 1 from fun x => rfl, hcore.2.1],
    hcore.2.2.1, hcore.2.2.2.1, hcore.2.2.2.2.1, hcore.2.2.2.2.2⟩

/-! ## Helper lemmas for `erase` -/

theorem unlinkAll_element_count (p : Nat) (upd : List (Option Loc)) :
    ∀ (ls : List Nat) (t : skip_list K),
      (skip_list.unlinkAll p upd ls t).element_count = t.element_count := by
  intro ls
  induction ls with
  | nil => intro t; rfl
  | cons i rest ih =>
    intro t
    show (skip_list.unlinkAll p upd rest _).element_count = _
    rw [ih, setFwd_element_count]

theorem unlinkAll_current_height (p : Nat) (upd : List (Option Loc)) :
    ∀ (ls : List Nat) (t : skip_list K),
      (skip_list.unlinkAll p upd ls t).current_height = t.current_height := by
  intro ls
  induction ls with
  | nil => intro t; rfl
  | cons i rest ih =>
    intro t
    show (skip_list.unlinkAll p upd rest _).current_height = _
    rw [ih, setFwd_current_height]

theorem unlinkAll_arena_length (p : Nat) (upd : List (Option Loc)) :
    ∀ (ls : List Nat) (t : skip_list K),
      (skip_list.unlinkAll p upd ls t).arena.length = t.arena.length := by
  intro ls
  induction ls with
  | nil => intro t; rfl
  | cons i rest ih =>
    intro t
    show (skip_list.unlinkAll p upd rest _).arena.length = _
    rw [ih, setFwd_arena_length]

theorem unlinkAll_sentinel_length (p : Nat) (upd : List (Option Loc)) :
    ∀ (ls : List Nat) (t : skip_list K),
      (skip_list.unlinkAll p upd ls t).sentinel_forward.length =
        t.sentinel_forward.length := by
  intro ls
  induction ls with
  | nil => intro t; rfl
  | cons i rest ih =>
    intro t
    show (skip_list.unlinkAll p upd rest _).sentinel_forward.length = _
    rw [ih, setFwd_sentinel_length]

theorem unlinkAll_isSome (p : Nat) (upd : List (Option Loc)) :
    ∀ (ls : List Nat) (t : skip_list K) (q : Nat),
      ((skip_list.unlinkAll p upd ls t).nodeAt q).isSome = (t.nodeAt q).isSome := by
  intro ls
  induction ls with
  | nil => intro t q; rfl
  | cons i rest ih =>
    intro t q
    show ((skip_list.unlinkAll p upd rest _).nodeAt q).isSome = _
    rw [ih, nodeAt_setFwd_isSome]

theorem unlinkAll_valD (p : Nat) (upd : List (Option Loc)) :
    ∀ (ls : List Nat) (t : skip_list K) (q : Nat),
      (skip_list.unlinkAll p upd ls t).valD q = t.valD q := by
  intro ls
  induction ls with
  | nil => intro t q; rfl
  | cons i rest ih =>
    intro t q
    show (skip_list.unlinkAll p upd rest _).valD q = _
    rw [ih, valD_setFwd]

theorem unlinkAll_heightOf (p : Nat) (upd : List (Option Loc)) :
    ∀ (ls : List Nat) (t : skip_list K) (q : Nat),
      (skip_list.unlinkAll p upd ls t).heightOf q = t.heightOf q := by
  intro ls
  induction ls with
  | nil => intro t q; rfl
  | cons i rest ih =>
    intro t q
    show (skip_list.unlinkAll p upd rest _).heightOf q = _
    rw [ih, heightOf_setFwd]

/-- Slot-level description of the unconditional unlink loop: each processed
level rewires `update[i]->forward[i]` to `removed->forward[i]`. -/
theorem unlinkAll_fwdAt (p : Nat) (upd : List (Option Loc)) :
    ∀ (ls : List Nat) (t : skip_list K),
      ls.Nodup →
      (∀ j ∈ ls, (upd.getD j none).getD Loc.head ≠ Loc.node p) →
      (∀ j ∈ ls, locInRange t ((upd.getD j none).getD Loc.head) j) →
      ∀ (i2 : Nat) (l : Loc),
        (skip_list.unlinkAll p upd ls t).fwdAt l i2 =
          if i2 ∈ ls ∧ l = (upd.getD i2 none).getD Loc.head then t.nodeFwd p i2
          else t.fwdAt l i2 := by
  intro ls
  induction ls with
  | nil =>
    intro t _ _ _ i2 l
    show t.fwdAt l i2 = _
    simp
  | cons i rest ih =>
    intro t hnd hnp hinr i2 l
    have hnp_i : (upd.getD i none).getD Loc.head ≠ Loc.node p := hnp i (by simp)
    have hinr_i : locInRange t ((upd.getD i none).getD Loc.head) i := hinr i (by simp)
    set u : Loc := (upd.getD i none).getD Loc.head with hu
    set t2 : skip_list K := t.setFwd u i (t.fwdAt (Loc.node p) i) with ht2
    have hstep : skip_list.unlinkAll p upd (i :: rest) t =
        skip_list.unlinkAll p upd rest t2 := rfl
    have hpavoid : ∀ j, t2.nodeFwd p j = t.nodeFwd p j := by
      intro j
      cases hul : u with
      | head => rw [ht2, hul]; rfl
      | node q =>
        have hqp : q ≠ p := by
          intro he
          exact hnp_i (by rw [hul, he])
        rw [ht2, hul]
        show (t.setFwd (Loc.node q) i _).nodeFwd p j = t.nodeFwd p j
        unfold skip_list.nodeFwd
        rw [nodeAt_setFwd_node_ne _ _ _ _ _ hqp]
    have hrest_inr : ∀ j ∈ rest, locInRange t2 ((upd.getD j none).getD Loc.head) j :=
      fun j hj => locInRange_setFwd _ _ _ _ _ _ (hinr j (by simp [hj]))
    rw [hstep, ih t2 (List.nodup_cons.1 hnd).2 (fun j hj => hnp j (by simp [hj]))
      hrest_inr i2 l]
    have hinotrest : i ∉ rest := (List.nodup_cons.1 hnd).1
    by_cases hi2 : i2 ∈ rest
    · have hne : i ≠ i2 := fun h => hinotrest (h ▸ hi2)
      by_cases hl : l = (upd.getD i2 none).getD Loc.head
      · rw [if_pos ⟨hi2, hl⟩, if_pos ⟨List.mem_cons_of_mem i hi2, hl⟩, hpavoid]
      · rw [if_neg (fun hc => hl hc.2), if_neg (fun hc => hl hc.2), ht2,
          fwdAt_setFwd_ne_level _ _ _ _ _ _ hne]
    · by_cases hii : i2 = i
      · subst hii
        by_cases hl : l = u
        · rw [if_neg (fun hc => hi2 hc.1), if_pos ⟨List.mem_cons_self i2 rest, by
            rw [← hu]; exact hl⟩]
          rw [hl, ht2, fwdAt_setFwd_self2 _ _ _ _ hinr_i]
          rfl
        · rw [if_neg (fun hc => hi2 hc.1), if_neg (fun hc => hl (by rw [hu]; exact hc.2)),
            ht2, fwdAt_setFwd_ne_loc _ _ _ _ _ _ (fun hc => hl hc.symm)]
      · have hne2 : ¬ (i2 ∈ i :: rest ∧ l = (upd.getD i2 none).getD Loc.head) := by
          rintro ⟨hc, _⟩
          rcases List.mem_cons.1 hc with he | he
          · exact hii he
          · exact hi2 he
        rw [if_neg (fun hc => hi2 hc.1), if_neg hne2, ht2,
          fwdAt_setFwd_ne_level _ _ _ _ _ _ (fun h => hii h.symm)]

/-- The source's unlink loop with its break condition equals the unconditional
unlink over the prefix of levels where the update path still points at the
removed node. -/
theorem unlinkLoop_eq_unlinkAll (p : Nat) (upd : List (Option Loc)) :
    ∀ (ls1 ls2 : List Nat) (t : skip_list K),
      (∀ j1 ∈ ls1, ∀ j2 ∈ ls2, j1 ≠ j2) →
      ls1.Nodup →
      (∀ j ∈ ls1, t.fwdAt ((upd.getD j none).getD Loc.head) j = some p) →
      (∀ j, ls2.head? = some j →
        t.fwdAt ((upd.getD j none).getD Loc.head) j ≠ some p) →
      skip_list.unlinkLoop p upd (ls1 ++ ls2) t = skip_list.unlinkAll p upd ls1 t := by
  intro ls1
  induction ls1 with
  | nil =>
    intro ls2 t _ _ _ hbreak
    cases ls2 with
    | nil => rfl
    | cons j rest =>
      show (if t.fwdAt ((upd.getD j none).getD Loc.head) j = some p then _ else t) = t
      rw [if_neg (hbreak j rfl)]
  | cons i ls1' ih =>
    intro ls2 t hcross hnd hsome hbreak
    have hsome_i : t.fwdAt ((upd.getD i none).getD Loc.head) i = some p :=
      hsome i (by simp)
    show (if t.fwdAt ((upd.getD i none).getD Loc.head) i = some p then
        skip_list.unlinkLoop p upd (ls1' ++ ls2)
          (t.setFwd ((upd.getD i none).getD Loc.head) i (t.fwdAt (Loc.node p) i))
      else t) =
      skip_list.unlinkAll p upd ls1'
        (t.setFwd ((upd.getD i none).getD Loc.head) i (t.fwdAt (Loc.node p) i))
    rw [if_pos hsome_i]
    set t2 : skip_list K :=
      t.setFwd ((upd.getD i none).getD Loc.head) i (t.fwdAt (Loc.node p) i) with ht2
    have hinotrest : i ∉ ls1' := (List.nodup_cons.1 hnd).1
    apply ih ls2 t2 (fun j1 hj1 j2 hj2 => hcross j1 (by simp [hj1]) j2 hj2)
      (List.nodup_cons.1 hnd).2
    · intro j hj
      have hne : i ≠ j := fun h => hinotrest (h ▸ hj)
      rw [ht2, fwdAt_setFwd_ne_level _ _ _ _ _ _ hne]
      exact hsome j (by simp [hj])
    · intro j hj
      have hne : i ≠ j := by
        intro he
        subst he
        cases ls2 with
        | nil => cases hj
        | cons j2 r2 =>
          have h2 : j2 = i := by injection hj
          exact hcross i (by simp) j2 (by simp) h2.symm
      rw [ht2, fwdAt_setFwd_ne_level _ _ _ _ _ _ hne]
      exact hbreak j hj

/-- Rebuilding one level chain after the unlink: the removed node `p` right
after the prefix `A` is bypassed. -/
theorem chainOk_erase_level (s s' : skip_list K) (i : Nat) (A C : List Nat) (p : Nat)
    (hAnodup : A.Nodup)
    (hentry : s'.fwdAt Loc.head i =
      if lastLoc Loc.head A = Loc.head then s.nodeFwd p i else s.fwdAt Loc.head i)
    (hAfwd : ∀ x ∈ A, Loc.node x ≠ lastLoc Loc.head A → s'.nodeFwd x i = s.nodeFwd x i)
    (hufwd : ∀ q, lastLoc Loc.head A = Loc.node q → s'.nodeFwd q i = s.nodeFwd p i)
    (hCfwd : ∀ x ∈ C, s'.nodeFwd x i = s.nodeFwd x i)
    (hch : s.chainOk i (s.fwdAt Loc.head i) (A ++ p :: C)) :
    s'.chainOk i (s'.fwdAt Loc.head i) (A ++ C) := by
  rcases List.eq_nil_or_concat A with rfl | ⟨xs, q, hA⟩
  · rw [lastLoc_nil, if_pos rfl] at hentry
    obtain ⟨_, hrest⟩ := hch
    show s'.chainOk i (s'.fwdAt Loc.head i) C
    rw [hentry]
    exact chainOk_congr hCfwd hrest
  · rw [List.concat_eq_append] at hA
    subst hA
    have hu : lastLoc Loc.head (xs ++ [q]) = Loc.node q := lastLoc_concat _ _ _
    rw [hu, if_neg (by simp)] at hentry
    have hqxs : q ∉ xs := by
      have h2 := hAnodup
      rw [List.nodup_append] at h2
      intro hq
      exact h2.2.2 hq (by simp)
    rw [chainOk_iff_chainSeg, List.append_assoc] at hch
    obtain ⟨om1, hseg_xs, hseg_rest⟩ := (chainSeg_append_iff _ _ _ _ _ _).1 hch
    obtain ⟨om2, hseg_q, hseg_pC⟩ := (chainSeg_append_iff _ _ _ _ _ _).1 hseg_rest
    have hom1 : om1 = some q := hseg_q.1
    have hom2 : om2 = s.nodeFwd q i := hseg_q.2
    have hchain_pC : s.chainOk i om2 (p :: C) := (chainOk_iff_chainSeg _ _ _ _).2 hseg_pC
    obtain ⟨_, hchainC⟩ := hchain_pC
    rw [chainOk_iff_chainSeg, List.append_assoc]
    refine (chainSeg_append_iff _ _ _ _ _ _).2 ⟨om1, ?_, ?_⟩
    · rw [hentry]
      apply chainSeg_congr
        (fun x hx => hAfwd x (by simp [hx]) (by
          rw [hu]
          simp only [ne_eq, Loc.node.injEq]
          intro he
          subst he
          exact hqxs hx))
      exact hseg_xs
    · show s'.chainSeg i om1 ([q] ++ C) none
      refine (chainSeg_append_iff _ _ _ _ _ _).2 ⟨s.nodeFwd p i, ?_, ?_⟩
      · exact ⟨hom1, (hufwd q hu).symm⟩
      · rw [← chainOk_iff_chainSeg]
        exact chainOk_congr hCfwd hchainC

theorem maxHeightOf_attained (s : skip_list K) :
    ∀ (l : List Nat), l ≠ [] → ∃ p ∈ l, maxHeightOf s l ≤ s.heightOf p := by
  intro l
  induction l with
  | nil => intro h; exact absurd rfl h
  | cons p rest ih =>
    intro _
    cases rest with
    | nil => exact ⟨p, by simp, by unfold maxHeightOf; simp⟩
    | cons p2 r2 =>
      obtain ⟨q, hq, hqmax⟩ := ih (by simp)
      rcases Nat.le_total (s.heightOf p) (maxHeightOf s (p2 :: r2)) with h | h
      · refine ⟨q, by simp [hq], ?_⟩
        show max (s.heightOf p) (maxHeightOf s (p2 :: r2)) ≤ s.heightOf q
        omega
      · refine ⟨p, by simp, ?_⟩
        show max (s.heightOf p) (maxHeightOf s (p2 :: r2)) ≤ s.heightOf p
        omega

/-- The trim loop of `erase` stops exactly at the new maximum populated
level. -/
theorem shrinkHeight_spec (hf : List (Option Nat)) (m : Nat) :
    ∀ h, m ≤ h → (∀ j, m ≤ j → j < h → hf.getD j none = none) →
      (∀ j, j + 1 = m → hf.getD j none ≠ none) →
      shrinkHeight hf h = m := by
  intro h
  induction h with
  | zero =>
    intro h0 _ _
    show 0 = m
    omega
  | succ k ih =>
    intro hm hempty hne
    show (if hf.getD k none = none then shrinkHeight hf k else k + 1) = m
    by_cases hk : hf.getD k none = none
    · rw [if_pos hk]
      have hmk : m ≤ k := by
        rcases Nat.lt_or_ge m (k + 1) with h1 | h1
        · omega
        · exfalso
          have : m = k + 1 := by omega
          exact hne k (by omega) hk
      exact ih hmk (fun j hj1 hj2 => hempty j hj1 (by omega)) hne
    · rw [if_neg hk]
      by_contra hne2
      have hmk : m ≤ k := by omega
      exact hk (hempty k hmk (by omega))

/-- `erase` on a key that is not present returns false with the state
untouched. -/
theorem erase_not_mem {s : skip_list K} {ns : List Nat} (hInv : Inv s ns) (v : K)
    (hv : v ∉ ns.map s.valD) : s.erase v = (s, false) := by
  by_cases hc0 : s.element_count = 0
  · simp only [skip_list.erase]
    rw [if_pos hc0]
  · simp only [skip_list.erase]
    rw [if_neg hc0]
    rw [candidate_eq hInv v]
    cases hB : (splitB s ns v 0).head? with
    | none => rfl
    | some b =>
      have hbns : b ∈ ns := by
        have := splitB_subset s ns v 0 (head?_mem_self hB)
        rwa [levChain_zero hInv] at this
      have hval : s.nodeVal? b ≠ some v := by
        rw [nodeVal?_eq_valD s b (hInv.live b hbns)]
        intro he
        have h3 : s.valD b = v := by injection he
        exact hv ((mem_map_iff_candidate hInv v).2 ⟨b, hB, h3⟩)
      show (if s.nodeVal? b = some v then _ else (s, false)) = (s, false)
      rw [if_neg hval]

/-- An erase that reports false did not modify the state (checked on the raw
code, with no invariant assumption). -/
theorem erase_false_unchanged (s : skip_list K) (v : K)
    (h : (s.erase v).2 = false) : (s.erase v).1 = s := by
  by_cases hc0 : s.element_count = 0
  · have he : s.erase v = (s, false) := by
      simp only [skip_list.erase]
      rw [if_pos hc0]
    rw [he]
  · cases hcand : s.fwdAt (s.searchPath v).1 0 with
    | none =>
      have he : s.erase v = (s, false) := by
        simp only [skip_list.erase]
        rw [if_neg hc0, hcand]
      rw [he]
    | some p =>
      by_cases hval : s.nodeVal? p = some v
      · exfalso
        have ht : (s.erase v).2 = true := by
          simp only [skip_list.erase]
          rw [if_neg hc0, hcand]
          show (if s.nodeVal? p = some v then _ else (s, false)).2 = true
          rw [if_pos hval]
        rw [h] at ht
        cases ht
      · have he : s.erase v = (s, false) := by
          simp only [skip_list.erase]
          rw [if_neg hc0, hcand]
          show (if s.nodeVal? p = some v then _ else (s, false)) = (s, false)
          rw [if_neg hval]
        rw [he]

/-- Core of a successful `erase`: the unlink loop is the unconditional unlink
over exactly the removed node's height, and the resulting state satisfies the
invariant on the old list minus the removed node. -/
theorem erase_core {s : skip_list K} {ns : List Nat} (hInv : Inv s ns) (v : K)
    {p : Nat} {rest : List Nat}
    (hB0 : splitB s ns v 0 = p :: rest) (hvp : s.valD p = v)
    (t1 t2 t3 : skip_list K)
    (hs1 : t1 = skip_list.unlinkLoop p (s.searchPath v).2
      (List.range s.current_height) s)
    (hs2 : t2 = { t1 with arena := t1.arena.set p none })
    (hs3 : t3 = { t2 with
      current_height := shrinkHeight t2.sentinel_forward t2.current_height }) :
    skip_list.unlinkLoop p (s.searchPath v).2 (List.range s.current_height) s =
      skip_list.unlinkAll p (s.searchPath v).2 (List.range (s.heightOf p)) s ∧
    Inv { t3 with element_count := t3.element_count - 1 } (splitA s ns v 0 ++ rest) ∧
    t3.element_count = s.element_count ∧
    p ∉ splitA s ns v 0 ++ rest ∧
    (∀ k, k ∈ (splitA s ns v 0 ++ rest).map
        ({ t3 with element_count := t3.element_count - 1 } : skip_list K).valD ↔
      (k ∈ ns.map s.valD ∧ k ≠ v)) := by
  have hcurle := hInv.curH_le
  have hAB : splitA s ns v 0 ++ splitB s ns v 0 = ns := by
    rw [splitA_append_splitB, levChain_zero hInv]
  have hABp : splitA s ns v 0 ++ p :: rest = ns := by rw [← hB0, hAB]
  have hpmem : p ∈ ns := by
    rw [← hABp]
    simp
  have hrestns : ∀ x ∈ rest, x ∈ ns := by
    intro x hx
    rw [← hABp]
    simp [hx]
  have hmemA0 : ∀ x ∈ splitA s ns v 0, x ∈ ns := fun x hx => splitA_mem_ns hInv hx
  have hpA : ∀ i, p ∉ splitA s ns v i := by
    intro i hp2
    have := splitA_val_lt hp2
    rw [hvp] at this
    exact lt_irrefl v this
  have hprest : p ∉ rest := by
    have hnodup : (splitA s ns v 0 ++ p :: rest).Nodup := by
      rw [hABp]
      exact hInv.nodup
    have h2 := (List.nodup_append.1 hnodup).2.1
    exact (List.nodup_cons.1 h2).1
  have hp_not : p ∉ splitA s ns v 0 ++ rest := by
    rw [List.mem_append]
    rintro (h | h)
    · exact hpA 0 h
    · exact hprest h
  have hhp1 : 1 ≤ s.heightOf p := (hInv.hhts p hpmem).1
  have hhpcur : s.heightOf p ≤ s.current_height := by
    rw [hInv.hcur]
    exact heightOf_le_maxHeightOf s ns p hpmem
  have hupdget : ∀ j, j < s.current_height →
      (((s.searchPath v).2.getD j none).getD Loc.head) = updLoc s ns v j := by
    intro j hj
    rw [searchPath_upd_getD hInv v j, if_pos hj]
    rfl
  have hrestB0 : ∀ x ∈ rest, x ∈ splitB s ns v 0 := by
    intro x hx
    rw [hB0]
    simp [hx]
  -- the per-level head of the `≥ v` suffix
  have hBj : ∀ j, j < s.heightOf p → splitB s ns v j =
      p :: rest.filter (fun q => decide (j < s.heightOf q)) := by
    intro j hj
    rw [splitB_filter hInv v j, hB0, List.filter_cons, if_pos (by simp [hj])]
  have hBj_high : ∀ j, s.heightOf p ≤ j → splitB s ns v j =
      rest.filter (fun q => decide (j < s.heightOf q)) := by
    intro j hj
    rw [splitB_filter hInv v j, hB0, List.filter_cons, if_neg (by simp; omega)]
  have hfwdu : ∀ j, j < MAX_HEIGHT →
      s.fwdAt (updLoc s ns v j) j = (splitB s ns v j).head? := fun j hj =>
    updLoc_fwd hInv v j hj
  -- the break-loop runs over exactly the removed node's levels
  have hrange : List.range s.current_height =
      List.range (s.heightOf p) ++
        List.range' (s.heightOf p) (s.current_height - s.heightOf p) := by
    have h := List.range'_append_1 0 (s.heightOf p) (s.current_height - s.heightOf p)
    simp only [Nat.zero_add] at h
    rw [List.range_eq_range', List.range_eq_range', h]
    congr 1
    omega
  have hupdne_p : ∀ j ∈ List.range (s.heightOf p),
      ((s.searchPath v).2.getD j none).getD Loc.head ≠ Loc.node p := by
    intro j hj
    have hjc : j < s.current_height := lt_of_lt_of_le (List.mem_range.1 hj) hhpcur
    rw [hupdget j hjc]
    rcases updLoc_eq_head_or_node s ns v j with h | ⟨q, hq, hqA⟩
    · rw [h]
      simp
    · rw [hq]
      intro he
      have hqq : q = p := by injection he
      subst hqq
      exact hpA j hqA
  have hloop : skip_list.unlinkLoop p (s.searchPath v).2
      (List.range s.current_height) s =
      skip_list.unlinkAll p (s.searchPath v).2 (List.range (s.heightOf p)) s := by
    rw [hrange]
    apply unlinkLoop_eq_unlinkAll
    · intro j1 hj1 j2 hj2
      have h1 := List.mem_range.1 hj1
      obtain ⟨i2, _, hi2⟩ := List.mem_range'.1 hj2
      omega
    · exact List.nodup_range _
    · intro j hj
      have hjp := List.mem_range.1 hj
      have hjc : j < s.current_height := lt_of_lt_of_le hjp hhpcur
      rw [hupdget j hjc, hfwdu j (by omega), hBj j hjp]
      rfl
    · intro j hj
      have hjeq : j = s.heightOf p := by
        rcases Nat.eq_zero_or_pos (s.current_height - s.heightOf p) with h0 | h0
        · rw [h0] at hj
          cases hj
        · have : s.current_height - s.heightOf p = (s.current_height - s.heightOf p - 1) + 1 := by
            omega
          rw [this, List.range'_succ] at hj
          have h2 : s.heightOf p = j := by injection hj
          omega
      subst hjeq
      have hjc : s.heightOf p < s.current_height := by
        rcases Nat.eq_zero_or_pos (s.current_height - s.heightOf p) with h0 | h0
        · exfalso
          rw [h0] at hj
          cases hj
        · omega
      rw [hupdget _ hjc, hfwdu _ (by omega), hBj_high _ le_rfl]
      cases hC : (rest.filter (fun q => decide (s.heightOf p < s.heightOf q))).head? with
      | none => simp
      | some q =>
        have hq : q ∈ rest := List.mem_of_mem_filter (head?_mem_self hC)
        intro he
        have : q = p := by injection he
        subst this
        exact hprest hq
  refine ⟨hloop, ?_⟩
  rw [hloop] at hs1
  have hinr : ∀ j ∈ List.range (s.heightOf p),
      locInRange s (((s.searchPath v).2.getD j none).getD Loc.head) j := by
    intro j hj
    have hjc : j < s.current_height := lt_of_lt_of_le (List.mem_range.1 hj) hhpcur
    rw [hupdget j hjc]
    rcases updLoc_eq_head_or_node s ns v j with h | ⟨q, hq, hqA⟩
    · rw [h]
      show j < s.sentinel_forward.length
      rw [hInv.hflen]
      omega
    · rw [hq]
      exact ⟨hInv.live q (splitA_mem_ns hInv hqA), splitA_height hqA⟩
  have ht1fwd0 := unlinkAll_fwdAt p (s.searchPath v).2 (List.range (s.heightOf p)) s
    (List.nodup_range _) hupdne_p hinr
  rw [← hs1] at ht1fwd0
  have ht1_count : t1.element_count = s.element_count := by
    rw [hs1, unlinkAll_element_count]
  have ht1_cur : t1.current_height = s.current_height := by
    rw [hs1, unlinkAll_current_height]
  have ht1_sentlen : t1.sentinel_forward.length = s.sentinel_forward.length := by
    rw [hs1, unlinkAll_sentinel_length]
  have ht1_isSome : ∀ q, (t1.nodeAt q).isSome = (s.nodeAt q).isSome := fun q => by
    rw [hs1, unlinkAll_isSome]
  have ht1_valD : ∀ q, t1.valD q = s.valD q := fun q => by
    rw [hs1, unlinkAll_valD]
  have ht1_h : ∀ q, t1.heightOf q = s.heightOf q := fun q => by
    rw [hs1, unlinkAll_heightOf]
  have ht2_sent : t2.sentinel_forward = t1.sentinel_forward := by rw [hs2]
  have ht2_cur : t2.current_height = t1.current_height := by rw [hs2]
  have ht2_count : t2.element_count = t1.element_count := by rw [hs2]
  have ht2_nodeAt_ne : ∀ q, q ≠ p → t2.nodeAt q = t1.nodeAt q := by
    intro q hq
    rw [hs2]
    show (t1.arena.set p none).getD q none = t1.arena.getD q none
    exact getD_set_ne _ _ _ _ _ (fun h => hq h.symm)
  have ht2_valD : ∀ q, q ≠ p → t2.valD q = s.valD q := by
    intro q hq
    unfold skip_list.valD
    rw [ht2_nodeAt_ne q hq]
    have := ht1_valD q
    unfold skip_list.valD at this
    exact this
  have ht2_h : ∀ q, q ≠ p → t2.heightOf q = s.heightOf q := by
    intro q hq
    unfold skip_list.heightOf
    rw [ht2_nodeAt_ne q hq]
    have := ht1_h q
    unfold skip_list.heightOf at this
    exact this
  have ht2_isSome : ∀ q, q ≠ p → (t2.nodeAt q).isSome = (s.nodeAt q).isSome := by
    intro q hq
    rw [ht2_nodeAt_ne q hq]
    exact ht1_isSome q
  have ht2_fwd_ne : ∀ (l : Loc) (i : Nat), l ≠ Loc.node p →
      t2.fwdAt l i = t1.fwdAt l i := by
    intro l i hl
    cases l with
    | head => rw [fwdAt_head, fwdAt_head, ht2_sent]
    | node q =>
      have hq : q ≠ p := fun he => hl (by rw [he])
      rw [fwdAt_node, fwdAt_node]
      unfold skip_list.nodeFwd
      rw [ht2_nodeAt_ne q hq]
  have ht2fwd : ∀ (i : Nat) (l : Loc), l ≠ Loc.node p → t2.fwdAt l i =
      if i ∈ List.range (s.heightOf p) ∧
          l = (((s.searchPath v).2.getD i none).getD Loc.head) then s.nodeFwd p i
      else s.fwdAt l i := by
    intro i l hl
    rw [ht2_fwd_ne l i hl, ht1fwd0 i l]
  have hrest_not_A : ∀ i, ∀ x ∈ rest, x ∉ splitA s ns v i := by
    intro i x hx hxA
    have hxA0 : x ∈ splitA s ns v 0 := by
      have h2 := splitA_filter hInv v i
      rw [h2] at hxA
      exact List.mem_of_mem_filter hxA
    have hnodup : (splitA s ns v 0 ++ p :: rest).Nodup := by
      rw [hABp]
      exact hInv.nodup
    exact (List.nodup_append.1 hnodup).2.2 hxA0 (by simp [hx])
  have hchains2 : ∀ i, i < MAX_HEIGHT →
      t2.chainOk i (t2.sentinel_forward.getD i none)
        (splitA s ns v i ++ rest.filter (fun q => decide (i < s.heightOf q))) := by
    intro i hi
    by_cases hih : i < s.heightOf p
    · have hiR : i ∈ List.range (s.heightOf p) := List.mem_range.2 hih
      have hic : i < s.current_height := lt_of_lt_of_le hih hhpcur
      have huloci : (((s.searchPath v).2.getD i none).getD Loc.head) = updLoc s ns v i :=
        hupdget i hic
      have hlastdef : lastLoc Loc.head (splitA s ns v i) = updLoc s ns v i := rfl
      have hnodupA : (splitA s ns v i).Nodup :=
        ((List.takeWhile_sublist _).trans (levChain_sublist s ns i)).nodup hInv.nodup
      have hentry : t2.fwdAt Loc.head i =
          if lastLoc Loc.head (splitA s ns v i) = Loc.head then s.nodeFwd p i
          else s.fwdAt Loc.head i := by
        rw [hlastdef, ht2fwd i Loc.head (by simp)]
        rcases updLoc_eq_head_or_node s ns v i with hcase | ⟨q, hcase, hqA⟩
        · rw [if_pos ⟨hiR, by rw [huloci, hcase]⟩, if_pos hcase]
        · rw [if_neg ?_, if_neg (by rw [hcase]; simp)]
          rintro ⟨_, hhd⟩
          rw [huloci, hcase] at hhd
          cases hhd
      have hAfwd : ∀ x ∈ splitA s ns v i,
          Loc.node x ≠ lastLoc Loc.head (splitA s ns v i) →
          t2.nodeFwd x i = s.nodeFwd x i := by
        intro x hx hne
        rw [hlastdef] at hne
        have hxp : x ≠ p := fun he => hpA i (he ▸ hx)
        rw [← fwdAt_node, ← fwdAt_node,
          ht2fwd i (Loc.node x) (by simp [hxp])]
        rw [if_neg ?_]
        rintro ⟨_, hhd⟩
        rw [huloci] at hhd
        exact hne hhd
      have hufwd : ∀ q, lastLoc Loc.head (splitA s ns v i) = Loc.node q →
          t2.nodeFwd q i = s.nodeFwd p i := by
        intro q hq
        rw [hlastdef] at hq
        have hqA : q ∈ splitA s ns v i := by
          rcases updLoc_eq_head_or_node s ns v i with hcase | ⟨q2, hcase, hq2A⟩
          · rw [hcase] at hq
            cases hq
          · rw [hcase] at hq
            have : q2 = q := by injection hq
            rw [← this]
            exact hq2A
        have hqp : q ≠ p := fun he => hpA i (he ▸ hqA)
        rw [← fwdAt_node, ht2fwd i (Loc.node q) (by simp [hqp]),
          if_pos ⟨hiR, by rw [huloci, hq]⟩]
      have hCfwd : ∀ x ∈ rest.filter (fun q => decide (i < s.heightOf q)),
          t2.nodeFwd x i = s.nodeFwd x i := by
        intro x hx
        have hxrest : x ∈ rest := List.mem_of_mem_filter hx
        have hxp : x ≠ p := fun he => hprest (he ▸ hxrest)
        rw [← fwdAt_node, ← fwdAt_node, ht2fwd i (Loc.node x) (by simp [hxp])]
        rw [if_neg ?_]
        rintro ⟨_, hhd⟩
        rw [huloci] at hhd
        rcases updLoc_eq_head_or_node s ns v i with hcase | ⟨q, hcase, hqA⟩
        · rw [hcase] at hhd
          cases hhd
        · rw [hcase] at hhd
          have : x = q := by injection hhd
          subst this
          exact hrest_not_A i x hxrest hqA
      have hch : s.chainOk i (s.fwdAt Loc.head i)
          (splitA s ns v i ++ p :: rest.filter (fun q => decide (i < s.heightOf q))) := by
        rw [← hBj i hih, splitA_append_splitB, fwdAt_head]
        exact hInv.hchains i hi
      have hres := chainOk_erase_level s t2 i (splitA s ns v i)
        (rest.filter (fun q => decide (i < s.heightOf q))) p hnodupA hentry hAfwd
        hufwd hCfwd hch
      rw [fwdAt_head] at hres
      exact hres
    · have hiNot : i ∉ List.range (s.heightOf p) := by
        rw [List.mem_range]
        omega
      have hentry : t2.fwdAt Loc.head i = s.fwdAt Loc.head i := by
        rw [ht2fwd i Loc.head (by simp), if_neg (fun hc => hiNot hc.1)]
      have hcongr : ∀ x ∈ splitA s ns v i ++
          rest.filter (fun q => decide (i < s.heightOf q)),
          t2.nodeFwd x i = s.nodeFwd x i := by
        intro x hx
        have hxp : x ≠ p := by
          rcases List.mem_append.1 hx with h | h
          · exact fun he => hpA i (he ▸ h)
          · exact fun he => hprest (he ▸ List.mem_of_mem_filter h)
        rw [← fwdAt_node, ← fwdAt_node, ht2fwd i (Loc.node x) (by simp [hxp]),
          if_neg (fun hc => hiNot hc.1)]
      have h0 : s.chainOk i (s.sentinel_forward.getD i none)
          (splitA s ns v i ++ rest.filter (fun q => decide (i < s.heightOf q))) := by
        rw [← hBj_high i (by omega), splitA_append_splitB]
        exact hInv.hchains i hi
      have h1 := chainOk_congr hcongr h0
      rw [← fwdAt_head, ← hentry, fwdAt_head] at h1
      exact h1
  -- the trim of current_height
  have hm_le : maxHeightOf s (splitA s ns v 0 ++ rest) ≤ s.current_height := by
    rw [hInv.hcur, maxHeightOf_le_iff]
    intro q hq
    apply heightOf_le_maxHeightOf
    rcases List.mem_append.1 hq with h | h
    · exact hmemA0 q h
    · exact hrestns q h
  have hchain_none : ∀ j, j < s.current_height →
      maxHeightOf s (splitA s ns v 0 ++ rest) ≤ j →
      t2.sentinel_forward.getD j none = none := by
    intro j hjc hmj
    have hj16 : j < MAX_HEIGHT := by omega
    have hc := hchains2 j hj16
    have hempty : splitA s ns v j ++
        rest.filter (fun q => decide (j < s.heightOf q)) = [] := by
      rw [List.eq_nil_iff_forall_not_mem]
      intro x hx
      have hhx : j < s.heightOf x := by
        rcases List.mem_append.1 hx with h | h
        · exact splitA_height h
        · simpa using List.of_mem_filter h
      have hxns2 : x ∈ splitA s ns v 0 ++ rest := by
        rcases List.mem_append.1 hx with h | h
        · have h2 : x ∈ splitA s ns v 0 := by
            have h3 := splitA_filter hInv v j
            rw [h3] at h
            exact List.mem_of_mem_filter h
          exact List.mem_append.2 (Or.inl h2)
        · exact List.mem_append.2 (Or.inr (List.mem_of_mem_filter h))
      have := heightOf_le_maxHeightOf s (splitA s ns v 0 ++ rest) x hxns2
      omega
    rw [hempty] at hc
    exact hc
  have hchain_some : ∀ j, j + 1 = maxHeightOf s (splitA s ns v 0 ++ rest) →
      t2.sentinel_forward.getD j none ≠ none := by
    intro j hj
    have hmpos : 1 ≤ maxHeightOf s (splitA s ns v 0 ++ rest) := by omega
    have hns2ne : splitA s ns v 0 ++ rest ≠ [] := by
      intro he
      rw [he] at hmpos
      have : maxHeightOf s ([] : List Nat) = 0 := rfl
      omega
    obtain ⟨q, hq, hqm⟩ := maxHeightOf_attained s _ hns2ne
    have hj16 : j < MAX_HEIGHT := by
      have := hm_le
      omega
    have hc := hchains2 j hj16
    have hqmem : q ∈ splitA s ns v j ++
        rest.filter (fun x => decide (j < s.heightOf x)) := by
      rcases List.mem_append.1 hq with h | h
      · apply List.mem_append.2
        left
        rw [splitA_filter hInv v j]
        exact List.mem_filter.2 ⟨h, by simp; omega⟩
      · exact List.mem_append.2 (Or.inr (List.mem_filter.2 ⟨h, by simp; omega⟩))
    cases hl : splitA s ns v j ++ rest.filter (fun x => decide (j < s.heightOf x)) with
    | nil =>
      rw [hl] at hqmem
      cases hqmem
    | cons c t =>
      rw [hl] at hc
      intro he
      rw [hc.1] at he
      cases he
  have ht3_cur : t3.current_height = maxHeightOf s (splitA s ns v 0 ++ rest) := by
    rw [hs3]
    show shrinkHeight t2.sentinel_forward t2.current_height = _
    rw [ht2_cur, ht1_cur]
    exact shrinkHeight_spec t2.sentinel_forward _ s.current_height hm_le
      (fun j hj1 hj2 => hchain_none j hj2 hj1) (fun j hj => hchain_some j hj)
  have ht3_sent : t3.sentinel_forward = t2.sentinel_forward := by rw [hs3]
  have ht3_count : t3.element_count = s.element_count := by
    rw [hs3]
    show t2.element_count = s.element_count
    rw [ht2_count, ht1_count]
  have hsub2 : List.Sublist (splitA s ns v 0 ++ rest) ns := by
    have h := (List.sublist_cons_self p rest).append_left (splitA s ns v 0)
    rw [hABp] at h
    exact h
  have hrest_gt : ∀ x ∈ rest, v < s.valD x := by
    intro x hx
    have hpw : List.Pairwise (fun a b => s.valD a < s.valD b) (p :: rest) := by
      rw [← hB0]
      exact hInv.hsorted.sublist
        ((List.dropWhile_sublist _).trans (levChain_sublist s ns 0))
    rw [← hvp]
    exact (List.pairwise_cons.1 hpw).1 x hx
  have hfin_valD : ∀ q, q ≠ p →
      ({ t3 with element_count := t3.element_count - 1 } : skip_list K).valD q =
        s.valD q := by
    intro q hq
    show t3.valD q = s.valD q
    rw [hs3]
    show t2.valD q = s.valD q
    exact ht2_valD q hq
  have hfin_h : ∀ q, q ≠ p →
      ({ t3 with element_count := t3.element_count - 1 } : skip_list K).heightOf q =
        s.heightOf q := by
    intro q hq
    show t3.heightOf q = s.heightOf q
    rw [hs3]
    show t2.heightOf q = s.heightOf q
    exact ht2_h q hq
  have hne_of_mem : ∀ q, q ∈ splitA s ns v 0 ++ rest → q ≠ p := by
    intro q hq he
    subst he
    exact hp_not hq
  have hmap_eq : (splitA s ns v 0 ++ rest).map
      ({ t3 with element_count := t3.element_count - 1 } : skip_list K).valD =
      (splitA s ns v 0).map s.valD ++ rest.map s.valD := by
    rw [List.map_append]
    congr 1
    · apply List.map_congr_left
      intro q hq
      exact hfin_valD q (hne_of_mem q (List.mem_append.2 (Or.inl hq)))
    · apply List.map_congr_left
      intro q hq
      exact hfin_valD q (hne_of_mem q (List.mem_append.2 (Or.inr hq)))
  refine ⟨?_, ht3_count, hp_not, ?_⟩
  · refine ⟨?_, ?_, ?_, ?_, ?_, ?_, ?_⟩
    · show t3.sentinel_forward.length = MAX_HEIGHT
      rw [ht3_sent, ht2_sent, ht1_sentlen, hInv.hflen]
    · intro q hq
      show (t3.nodeAt q).isSome = true
      have hqp := hne_of_mem q hq
      rw [hs3]
      show (t2.nodeAt q).isSome = true
      rw [ht2_isSome q hqp]
      apply hInv.live
      rcases List.mem_append.1 hq with h | h
      · exact hmemA0 q h
      · exact hrestns q h
    · intro q hq
      have hqp := hne_of_mem q hq
      have hqns : q ∈ ns := by
        rcases List.mem_append.1 hq with h | h
        · exact hmemA0 q h
        · exact hrestns q h
      show 1 ≤ ({ t3 with element_count := t3.element_count - 1 } :
          skip_list K).heightOf q ∧ _
      rw [hfin_h q hqp]
      exact hInv.hhts q hqns
    · show t3.current_height = _
      rw [ht3_cur]
      symm
      apply maxHeightOf_congr
      intro q hq
      exact hfin_h q (hne_of_mem q hq)
    · intro i hi
      have h1 : levChain { t3 with element_count := t3.element_count - 1 }
          (splitA s ns v 0 ++ rest) i =
          splitA s ns v i ++ rest.filter (fun q => decide (i < s.heightOf q)) := by
        unfold levChain
        rw [List.filter_append]
        congr 1
        · rw [splitA_filter hInv v i]
          apply List.filter_congr
          intro q hq
          rw [hfin_h q (hne_of_mem q (List.mem_append.2 (Or.inl hq)))]
        · apply List.filter_congr
          intro q hq
          rw [hfin_h q (hne_of_mem q (List.mem_append.2 (Or.inr hq)))]
      rw [h1]
      show skip_list.chainOk _ i (t3.sentinel_forward.getD i none) _
      rw [ht3_sent]
      apply chainOk_congr ?_ (hchains2 i hi)
      intro q _
      show ({ t3 with element_count := t3.element_count - 1 } :
        skip_list K).nodeFwd q i = t2.nodeFwd q i
      unfold skip_list.nodeFwd skip_list.nodeAt
      rw [show ({ t3 with element_count := t3.element_count - 1 } :
        skip_list K).arena = t2.arena from by rw [hs3]]
    · refine (hInv.hsorted.sublist hsub2).imp_of_mem ?_
      intro x y hx hy hr
      rw [hfin_valD x (hne_of_mem x hx), hfin_valD y (hne_of_mem y hy)]
      exact hr
    · show t3.element_count - 1 = (splitA s ns v 0 ++ rest).length
      rw [ht3_count, hInv.hcount]
      have h2 : ns.length = (splitA s ns v 0).length + (1 + rest.length) := by
        have h3 : (splitA s ns v 0 ++ p :: rest).length =
            (splitA s ns v 0).length + (1 + rest.length) := by
          rw [List.length_append, List.length_cons]
          omega
        rw [hABp] at h3
        rw [← h3]
      rw [List.length_append]
      omega
  · intro k
    rw [hmap_eq]
    have hold : ns.map s.valD =
        (splitA s ns v 0).map s.valD ++ v :: rest.map s.valD := by
      have h3 : (splitA s ns v 0 ++ p :: rest).map s.valD =
          (splitA s ns v 0).map s.valD ++ v :: rest.map s.valD := by
        rw [List.map_append, List.map_cons, hvp]
      rw [hABp] at h3
      exact h3
    rw [hold]
    constructor
    · intro hk
      rcases List.mem_append.1 hk with h | h
      · obtain ⟨x, hx, hxv⟩ := List.mem_map.1 h
        have hlt : s.valD x < v := splitA_val_lt hx
        refine ⟨List.mem_append.2 (Or.inl h), ?_⟩
        rw [← hxv]
        exact ne_of_lt hlt
      · obtain ⟨x, hx, hxv⟩ := List.mem_map.1 h
        have hgt : v < s.valD x := hrest_gt x hx
        refine ⟨List.mem_append.2 (Or.inr (by simp [h])), ?_⟩
        rw [← hxv]
        exact ne_of_gt hgt
    · rintro ⟨hk, hkv⟩
      rcases List.mem_append.1 hk with h | h
      · exact List.mem_append.2 (Or.inl h)
      · rcases List.mem_cons.1 h with rfl | h2
        · exact absurd rfl hkv
        · exact List.mem_append.2 (Or.inr h2)

/-- Specification of a successful `erase`: returns true, the unlink loop
rewires exactly the removed node's own levels, and the invariant holds on the
remaining nodes. -/
theorem erase_spec_mem {s : skip_list K} {ns : List Nat} (hInv : Inv s ns) (v : K)
    (hv : v ∈ ns.map s.valD) :
    (s.erase v).2 = true ∧
    ∃ p rest, splitB s ns v 0 = p :: rest ∧ s.valD p = v ∧ p ∈ ns ∧
      Inv (s.erase v).1 (splitA s ns v 0 ++ rest) ∧
      (s.erase v).1.element_count + 1 = s.element_count ∧
      p ∉ splitA s ns v 0 ++ rest ∧
      (∀ k, k ∈ (splitA s ns v 0 ++ rest).map (s.erase v).1.valD ↔
        (k ∈ ns.map s.valD ∧ k ≠ v)) ∧
      skip_list.unlinkLoop p (s.searchPath v).2 (List.range s.current_height) s =
        skip_list.unlinkAll p (s.searchPath v).2 (List.range (s.heightOf p)) s := by
  obtain ⟨b, hB, hvb⟩ := (mem_map_iff_candidate hInv v).1 hv
  obtain ⟨rest, hB0⟩ : ∃ rest, splitB s ns v 0 = b :: rest := by
    cases hBl : splitB s ns v 0 with
    | nil =>
      rw [hBl] at hB
      cases hB
    | cons c t =>
      rw [hBl] at hB
      have : c = b := by injection hB
      subst this
      exact ⟨t, rfl⟩
  have hbmem : b ∈ ns := by
    have := splitB_subset s ns v 0 (head?_mem_self hB)
    rwa [levChain_zero hInv] at this
  have hc0 : ¬ s.element_count = 0 := by
    rw [hInv.hcount]
    intro he
    rw [List.length_eq_zero] at he
    rw [he] at hv
    cases hv
  have hcand : s.fwdAt (s.searchPath v).1 0 = some b := by
    rw [candidate_eq hInv v, hB]
  have hval : s.nodeVal? b = some v := by
    rw [nodeVal?_eq_valD s b (hInv.live b hbmem), hvb]
  set t1 : skip_list K :=
    skip_list.unlinkLoop b (s.searchPath v).2 (List.range s.current_height) s with ht1
  set t2 : skip_list K := { t1 with arena := t1.arena.set b none } with ht2
  set t3 : skip_list K :=
    { t2 with current_height := shrinkHeight t2.sentinel_forward t2.current_height }
    with ht3
  have hshape : s.erase v = ({ t3 with element_count := t3.element_count - 1 }, true) := by
    simp only [skip_list.erase]
    rw [if_neg hc0, hcand]
    show (if s.nodeVal? b = some v then _ else _) = _
    rw [if_pos hval]
  have hcore := erase_core hInv v hB0 hvb t1 t2 t3 ht1 ht2 ht3
  obtain ⟨hloop, hinv2, hcnt, hnotmem, hmem⟩ := hcore
  have hns_pos : 1 ≤ ns.length := by
    cases hns : ns with
    | nil =>
      rw [hns] at hv
      cases hv
    | cons x t => simp
  refine ⟨by rw [hshape], b, rest, hB0, hvb, hbmem, ?_, ?_, hnotmem, ?_, hloop⟩
  · rw [hshape]
    exact hinv2
  · rw [hshape]
    show t3.element_count - 1 + 1 = s.element_count
    rw [hcnt, hInv.hcount]
    omega
  · intro k
    rw [hshape]
    exact hmem k

/-! ## Iteration and whole-run lemmas -/

theorem chainFrom_eq (s : skip_list K) :
    ∀ (ms : List Nat) (fuel : Nat) (o : Option Nat),
      s.chainOk 0 o ms → ms.length ≤ fuel → s.chainFrom fuel o = ms := by
  intro ms
  induction ms with
  | nil =>
    intro fuel o hch _
    have : o = none := hch
    subst this
    cases fuel <;> rfl
  | cons p rest ih =>
    intro fuel o hch hlen
    obtain ⟨rfl, hrest⟩ := hch
    cases fuel with
    | zero => simp at hlen
    | succ f =>
      show p :: s.chainFrom f (s.nodeFwd p 0) = p :: rest
      rw [ih f (s.nodeFwd p 0) hrest (by simp at hlen; omega)]

theorem filterMap_nodeVal (s : skip_list K) :
    ∀ (l : List Nat), (∀ p ∈ l, (s.nodeAt p).isSome = true) →
      l.filterMap s.nodeVal? = l.map s.valD := by
  intro l
  induction l with
  | nil => intro _; rfl
  | cons p rest ih =>
    intro hl
    rw [List.filterMap_cons, List.map_cons,
      nodeVal?_eq_valD s p (hl p (by simp)), ih (fun q hq => hl q (by simp [hq]))]

/-- Under the invariant, iterating `begin()` to `end()` yields exactly the
keys in `ns` order. -/
theorem toKeys_eq {s : skip_list K} {ns : List Nat} (hInv : Inv s ns) :
    s.toKeys = ns.map s.valD := by
  unfold skip_list.toKeys
  have hch : s.chainOk 0 (s.begin) ns := by
    have h := hInv.hchains 0 (by norm_num [MAX_HEIGHT])
    rw [levChain_zero hInv] at h
    exact h
  rw [chainFrom_eq s ns s.arena.length s.begin hch hInv.length_le]
  exact filterMap_nodeVal s ns hInv.live

/-- The freshly constructed list satisfies the invariant with no nodes. -/
theorem inv_new : Inv (skip_list.new : skip_list K) [] := by
  refine ⟨?_, ?_, ?_, ?_, ?_, ?_, ?_⟩
  · show (List.replicate MAX_HEIGHT (none : Option Nat)).length = MAX_HEIGHT
    simp
  · intro p hp
    cases hp
  · intro p hp
    cases hp
  · rfl
  · intro i _
    show skip_list.chainOk _ i
      ((List.replicate MAX_HEIGHT (none : Option Nat)).getD i none) []
    show (List.replicate MAX_HEIGHT (none : Option Nat)).getD i none = none
    exact getD_replicate_self none MAX_HEIGHT i
  · exact List.Pairwise.nil
  · rfl

/-- Membership after an insert of a fresh key: the new key joins the old
ones. -/
theorem insert_mem_iff {s : skip_list K} {ns : List Nat} (hInv : Inv s ns) (v : K)
    (coins : Nat → Bool) (hv : v ∉ ns.map s.valD) (k : K) :
    k ∈ (splitA s ns v 0 ++ s.arena.length :: splitB s ns v 0).map
        (s.insert v coins).1.valD ↔ (k = v ∨ k ∈ ns.map s.valD) := by
  obtain ⟨_, _, _, _, hvala, _, hold⟩ := insert_spec_new hInv v coins hv
  have hAB : splitA s ns v 0 ++ splitB s ns v 0 = ns := by
    rw [splitA_append_splitB, levChain_zero hInv]
  have hne : ∀ q ∈ ns, q ≠ s.arena.length := by
    intro q hq he
    have := ns_lt_arena hInv q hq
    omega
  have hmapA : (splitA s ns v 0).map (s.insert v coins).1.valD =
      (splitA s ns v 0).map s.valD := by
    apply List.map_congr_left
    intro q hq
    exact (hold q (hne q (splitA_mem_ns hInv hq))).1
  have hmapB : (splitB s ns v 0).map (s.insert v coins).1.valD =
      (splitB s ns v 0).map s.valD := by
    apply List.map_congr_left
    intro q hq
    exact (hold q (hne q (splitB_mem_ns hInv hq))).1
  rw [List.map_append, List.map_cons, hmapA, hmapB, hvala]
  have hmapns : (splitA s ns v 0).map s.valD ++ (splitB s ns v 0).map s.valD =
      ns.map s.valD := by
    rw [← List.map_append, hAB]
  constructor
  · intro hk
    rcases List.mem_append.1 hk with h | h
    · right
      rw [← hmapns]
      exact List.mem_append.2 (Or.inl h)
    · rcases List.mem_cons.1 h with rfl | h2
      · left
        rfl
      · right
        rw [← hmapns]
        exact List.mem_append.2 (Or.inr h2)
  · rintro (rfl | hk)
    · exact List.mem_append.2 (Or.inr (by simp))
    · rw [← hmapns] at hk
      rcases List.mem_append.1 hk with h | h
      · exact List.mem_append.2 (Or.inl h)
      · exact List.mem_append.2 (Or.inr (by simp [h]))

/-- Invariant and key-set tracking along any operation sequence. -/
theorem run_inv (ops : List (Op K)) :
    ∀ (s : skip_list K) (ns : List Nat) (b : K → Bool),
      Inv s ns → (∀ k, k ∈ ns.map s.valD ↔ b k = true) →
      ∃ ns2, Inv (ops.foldl applyOp s) ns2 ∧
        ∀ k, (k ∈ ns2.map (ops.foldl applyOp s).valD ↔
          (ops.foldl (fun acc op =>
            match op with
            | Op.ins v _ => if v = k then true else acc
            | Op.del v => if v = k then false else acc) (b k)) = true) := by
  induction ops with
  | nil => exact fun s ns b hInv hb => ⟨ns, hInv, hb⟩
  | cons op rest ih =>
    intro s ns b hInv hb
    cases op with
    | ins v coins =>
      by_cases hv : v ∈ ns.map s.valD
      · have hdup := insert_dup hInv v coins hv
        have happ : applyOp s (Op.ins v coins) = s := by
          show (s.insert v coins).1 = s
          rw [hdup]
        rw [List.foldl_cons, happ]
        apply ih s ns _ hInv
        intro k
        show k ∈ ns.map s.valD ↔ (if v = k then true else b k) = true
        rw [hb k]
        by_cases hk : v = k
        · subst hk
          simp only [if_pos rfl]
          constructor
          · intro _
            rfl
          · intro _
            exact (hb v).1 hv
        · rw [if_neg hk]
      · obtain ⟨_, hInv2, _, _, _, _, _⟩ := insert_spec_new hInv v coins hv
        rw [List.foldl_cons]
        apply ih _ _ _ hInv2
        intro k
        show k ∈ (splitA s ns v 0 ++ s.arena.length :: splitB s ns v 0).map
          (s.insert v coins).1.valD ↔ (if v = k then true else b k) = true
        rw [insert_mem_iff hInv v coins hv k]
        by_cases hk : v = k
        · subst hk
          simp
        · rw [if_neg hk, hb k]
          constructor
          · rintro (h | h)
            · exact absurd h.symm hk
            · exact h
          · intro h
            right
            exact h
    | del v =>
      by_cases hv : v ∈ ns.map s.valD
      · obtain ⟨_, p, rest2, _, _, _, hInv2, _, _, hmem, _⟩ := erase_spec_mem hInv v hv
        rw [List.foldl_cons]
        apply ih _ _ _ hInv2
        intro k
        show k ∈ (splitA s ns v 0 ++ rest2).map (s.erase v).1.valD ↔
          (if v = k then false else b k) = true
        rw [hmem k]
        by_cases hk : v = k
        · subst hk
          simp
        · rw [if_neg hk, hb k]
          constructor
          · rintro ⟨h, _⟩
            exact h
          · intro h
            exact ⟨h, fun he => hk he.symm⟩
      · have hdel := erase_not_mem hInv v hv
        have happ : applyOp s (Op.del v) = s := by
          show (s.erase v).1 = s
          rw [hdel]
        rw [List.foldl_cons, happ]
        apply ih s ns _ hInv
        intro k
        show k ∈ ns.map s.valD ↔ (if v = k then false else b k) = true
        rw [hb k]
        by_cases hk : v = k
        · subst hk
          rw [if_pos rfl]
          constructor
          · intro h
            exact absurd ((hb v).2 h) hv
          · intro h
            cases h
        · rw [if_neg hk]

/-! ## `clear` helpers -/

theorem map_const_none_getD (l : List (Option Nat)) (i : Nat) :
    (l.map fun _ => (none : Option Nat)).getD i none = none := by
  rw [List.getD_eq_getElem?_getD, List.getElem?_map]
  cases l[i]? <;> rfl

theorem chainFrom_none (s : skip_list K) (fuel : Nat) : s.chainFrom fuel none = [] := by
  cases fuel <;> rfl

theorem clear_sentinel_getD (s : skip_list K) (i : Nat) :
    (s.clear).sentinel_forward.getD i none = none :=
  map_const_none_getD s.sentinel_forward i

theorem clear_contains (s : skip_list K) (v : K) : (s.clear).contains v = false := by
  have hsp : ((s.clear).searchPath v).1 = Loc.head := rfl
  show (match (s.clear).fwdAt ((s.clear).searchPath v).1 0 with
        | none => false
        | some p =>
          match (s.clear).nodeVal? p with
          | none => false
          | some w => decide (w = v)) = false
  rw [hsp, fwdAt_head, clear_sentinel_getD]

theorem clear_find (s : skip_list K) (v : K) : (s.clear).find v = none := by
  have hsp : ((s.clear).searchPath v).1 = Loc.head := rfl
  show (match (s.clear).fwdAt ((s.clear).searchPath v).1 0 with
        | none => none
        | some p =>
          match (s.clear).nodeVal? p with
          | none => none
          | some w => if w = v then some p else none) = none
  rw [hsp, fwdAt_head, clear_sentinel_getD]

/-! ## The claims -/

/-- C1: For every sequence of insert and erase operations starting from a
freshly constructed container, iterating from `begin()` to `end()` visits keys
in strictly increasing order with no duplicates, and the set of keys visited
equals the set of keys currently present (inserted and not subsequently
erased). -/
theorem claim_C1 (ops : List (Op K)) :
    List.Chain' (· < ·) (runOps ops).toKeys ∧
    (runOps ops).toKeys.Nodup ∧
    (∀ k, k ∈ (runOps ops).toKeys ↔ presentAfter ops k = true) := by
  obtain ⟨ns2, hInv2, hmem⟩ :=
    run_inv ops skip_list.new [] (fun _ => false) inv_new (by simp)
  have hkeys : (runOps ops).toKeys = ns2.map (runOps ops).valD := toKeys_eq hInv2
  have hpw : List.Pairwise (· < ·) (runOps ops).toKeys := by
    rw [hkeys]
    exact List.pairwise_map.2 hInv2.hsorted
  refine ⟨hpw.chain', hpw.imp (fun h => ne_of_lt h), ?_⟩
  intro k
  rw [hkeys]
  exact hmem k

/-- Closed instance of C1 at a concrete operation sequence. -/
theorem claim_C1_witness :
    List.Chain' (· < ·)
      (runOps [Op.ins (5 : Nat) (fun _ => false), Op.ins 3 (fun _ => false),
        Op.del 5]).toKeys ∧
    ((3 : Nat) ∈ (runOps [Op.ins (5 : Nat) (fun _ => false),
        Op.ins 3 (fun _ => false), Op.del 5]).toKeys ↔
      presentAfter [Op.ins (5 : Nat) (fun _ => false), Op.ins 3 (fun _ => false),
        Op.del 5] 3 = true) :=
  ⟨(claim_C1 _).1, (claim_C1 _).2.2 3⟩

/-- C2: In `erase`, the per-level unlink loop that stops at the first level
whose update-path forward pointer no longer targets the removed node rewires
exactly the removed node's own height levels — it equals the unconditional
unlink over levels `0..node_height-1` — and after a successful erase the
removed node is absent from the chain at every level. -/
theorem claim_C2 {s : skip_list K} {ns : List Nat} (hInv : Inv s ns) (v : K)
    (hv : v ∈ ns.map s.valD) :
    ∃ p, s.fwdAt (s.searchPath v).1 0 = some p ∧ s.nodeVal? p = some v ∧
      skip_list.unlinkLoop p (s.searchPath v).2 (List.range s.current_height) s =
        skip_list.unlinkAll p (s.searchPath v).2 (List.range (s.heightOf p)) s ∧
      (s.erase v).2 = true ∧
      ∃ ns2, Inv (s.erase v).1 ns2 ∧ p ∉ ns2 := by
  obtain ⟨htrue, p, rest2, hB0, hvp, hpmem, hInv2, _, hnot, _, hloop⟩ :=
    erase_spec_mem hInv v hv
  refine ⟨p, ?_, ?_, hloop, htrue, _, hInv2, hnot⟩
  · rw [candidate_eq hInv v, hB0]
    rfl
  · rw [nodeVal?_eq_valD s p (hInv.live p hpmem), hvp]

/-- Invariant and membership facts for a one-element list, used by
witnesses. -/
theorem inv_after_one :
    Inv (((skip_list.new : skip_list Nat).insert 5 (fun _ => false)).1) [0] ∧
    (5 : Nat) ∈
      ([0].map (((skip_list.new : skip_list Nat).insert 5 (fun _ => false)).1).valD) := by
  have h := insert_spec_new (inv_new (K := Nat)) 5 (fun _ => false) (by simp)
  refine ⟨h.2.1, ?_⟩
  have hval : (((skip_list.new : skip_list Nat)).insert 5 (fun _ => false)).1.valD 0 = 5 :=
    h.2.2.2.2.1
  simp [hval]

/-- Closed instance of C2 on a one-element list. -/
theorem claim_C2_witness :
    ∃ p, (((skip_list.new : skip_list Nat).insert 5 (fun _ => false)).1).fwdAt
        ((((skip_list.new : skip_list Nat).insert 5 (fun _ => false)).1).searchPath 5).1
        0 = some p ∧
      (((skip_list.new : skip_list Nat).insert 5 (fun _ => false)).1).nodeVal? p =
        some 5 ∧
      skip_list.unlinkLoop p
        ((((skip_list.new : skip_list Nat).insert 5 (fun _ => false)).1).searchPath 5).2
        (List.range
          (((skip_list.new : skip_list Nat).insert 5 (fun _ => false)).1).current_height)
        (((skip_list.new : skip_list Nat).insert 5 (fun _ => false)).1) =
      skip_list.unlinkAll p
        ((((skip_list.new : skip_list Nat).insert 5 (fun _ => false)).1).searchPath 5).2
        (List.range
          ((((skip_list.new : skip_list Nat).insert 5 (fun _ => false)).1).heightOf p))
        (((skip_list.new : skip_list Nat).insert 5 (fun _ => false)).1) ∧
      ((((skip_list.new : skip_list Nat).insert 5 (fun _ => false)).1).erase 5).2 =
        true ∧
      ∃ ns2, Inv ((((skip_list.new : skip_list Nat).insert 5
        (fun _ => false)).1).erase 5).1 ns2 ∧ p ∉ ns2 :=
  claim_C2 inv_after_one.1 5 inv_after_one.2

/-- C3: `insert(value)` returns true iff the value was absent, never stores a
duplicate: a false-returning insert leaves the structure unchanged, inserting
the same key twice changes the size by exactly one in total, and the second
call returns false. -/
theorem claim_C3 {s : skip_list K} {ns : List Nat} (hInv : Inv s ns) (v : K)
    (c1 c2 : Nat → Bool) :
    ((s.insert v c1).2 = true ↔ v ∉ ns.map s.valD) ∧
    ((s.insert v c1).2 = false → (s.insert v c1).1 = s) ∧
    ((s.insert v c1).1.insert v c2).2 = false ∧
    (v ∉ ns.map s.valD →
      (s.insert v c1).1.size = s.size + 1 ∧
      ((s.insert v c1).1.insert v c2).1.size = s.size + 1) := by
  by_cases hv : v ∈ ns.map s.valD
  · have hdup := insert_dup hInv v c1 hv
    have hdup2 : ((s.insert v c1).1.insert v c2) = ((s.insert v c1).1, false) := by
      rw [hdup]
      exact insert_dup hInv v c2 hv
    refine ⟨?_, ?_, by rw [hdup2], ?_⟩
    · rw [hdup]
      simp [hv]
    · intro _
      rw [hdup]
    · intro hnv
      exact absurd hv hnv
  · obtain ⟨htrue, hInv2, hcount, _, _, _, _⟩ := insert_spec_new hInv v c1 hv
    have hvmem2 : v ∈ (splitA s ns v 0 ++ s.arena.length :: splitB s ns v 0).map
        (s.insert v c1).1.valD := (insert_mem_iff hInv v c1 hv v).2 (Or.inl rfl)
    have hdup2 := insert_dup hInv2 v c2 hvmem2
    refine ⟨by simp [htrue, hv], ?_, by rw [hdup2], ?_⟩
    · intro hfalse
      rw [htrue] at hfalse
      cases hfalse
    · intro _
      refine ⟨hcount, ?_⟩
      rw [hdup2]
      exact hcount

/-- Closed instance of C3 on the empty list. -/
theorem claim_C3_witness :
    (((skip_list.new : skip_list Nat).insert 5 (fun _ => false)).2 = true ↔
      (5 : Nat) ∉ ([] : List Nat).map (skip_list.new : skip_list Nat).valD) ∧
    (((skip_list.new : skip_list Nat).insert 5 (fun _ => false)).2 = false →
      ((skip_list.new : skip_list Nat).insert 5 (fun _ => false)).1 = skip_list.new) ∧
    (((skip_list.new : skip_list Nat).insert 5 (fun _ => false)).1.insert 5
      (fun _ => false)).2 = false ∧
    ((5 : Nat) ∉ ([] : List Nat).map (skip_list.new : skip_list Nat).valD →
      ((skip_list.new : skip_list Nat).insert 5 (fun _ => false)).1.size =
        (skip_list.new : skip_list Nat).size + 1 ∧
      (((skip_list.new : skip_list Nat).insert 5 (fun _ => false)).1.insert 5
        (fun _ => false)).1.size = (skip_list.new : skip_list Nat).size + 1) :=
  claim_C3 inv_new 5 (fun _ => false) (fun _ => false)

/-- C4: if `erase(k)` returns true then `contains(k)` is false afterwards and
the size decreased by exactly one; if it returns false the entire list state
is unchanged. -/
theorem claim_C4 {s : skip_list K} {ns : List Nat} (hInv : Inv s ns) (v : K) :
    ((s.erase v).2 = true →
      (s.erase v).1.contains v = false ∧ (s.erase v).1.size + 1 = s.size) ∧
    ((s.erase v).2 = false → (s.erase v).1 = s) := by
  refine ⟨?_, erase_false_unchanged s v⟩
  intro htrue
  by_cases hv : v ∈ ns.map s.valD
  · obtain ⟨_, p, rest2, _, _, _, hInv2, hcnt, _, hmem, _⟩ := erase_spec_mem hInv v hv
    constructor
    · have hnot : v ∉ (splitA s ns v 0 ++ rest2).map (s.erase v).1.valD := by
        rw [hmem v]
        rintro ⟨_, h⟩
        exact h rfl
      cases hcc : (s.erase v).1.contains v
      · rfl
      · exact absurd ((contains_spec hInv2 v).1 hcc) hnot
    · exact hcnt
  · rw [erase_not_mem hInv v hv] at htrue
    cases htrue

/-- Closed instance of C4 on the empty list. -/
theorem claim_C4_witness :
    (((skip_list.new : skip_list Nat).erase 5).2 = true →
      ((skip_list.new : skip_list Nat).erase 5).1.contains 5 = false ∧
      ((skip_list.new : skip_list Nat).erase 5).1.size + 1 =
        (skip_list.new : skip_list Nat).size) ∧
    (((skip_list.new : skip_list Nat).erase 5).2 = false →
      ((skip_list.new : skip_list Nat).erase 5).1 = skip_list.new) :=
  claim_C4 inv_new 5

/-- C5: after construction, any run of inserts and erases, or `clear`,
`current_height` equals the maximum node height among live nodes (0 when there
are none), and a successful insert raises it to a taller new node's height. -/
theorem claim_C5 :
    (skip_list.new : skip_list K).current_height = 0 ∧
    (∀ s : skip_list K, (s.clear).current_height = 0) ∧
    (∀ ops : List (Op K), ∃ ns2, Inv (runOps ops) ns2 ∧
      (runOps ops).current_height = maxHeightOf (runOps ops) ns2 ∧
      (ns2 = [] → (runOps ops).current_height = 0)) ∧
    (∀ (s : skip_list K) (ns : List Nat) (v : K) (coins : Nat → Bool),
      Inv s ns → v ∉ ns.map s.valD →
      (s.insert v coins).1.current_height =
        max s.current_height (generateRandomHeight coins)) := by
  refine ⟨rfl, fun s => rfl, ?_, ?_⟩
  · intro ops
    obtain ⟨ns2, hInv2, _⟩ :=
      run_inv ops skip_list.new [] (fun _ => false) inv_new (by simp)
    refine ⟨ns2, hInv2, hInv2.hcur, ?_⟩
    intro he
    show (List.foldl applyOp skip_list.new ops).current_height = 0
    rw [hInv2.hcur, he]
    rfl
  · intro s ns v coins hInv hv
    exact (insert_spec_new hInv v coins hv).2.2.2.1

/-- Closed instance of C5. -/
theorem claim_C5_witness :
    (skip_list.new : skip_list Nat).current_height = 0 ∧
    ((skip_list.new : skip_list Nat).clear).current_height = 0 :=
  ⟨(claim_C5 (K := Nat)).1, (claim_C5 (K := Nat)).2.1 skip_list.new⟩

/-- C6: on an empty list, `erase` returns false immediately leaving the state
unchanged, `contains` returns false for every key, and `begin() = end()`. -/
theorem claim_C6 {s : skip_list K} {ns : List Nat} (hInv : Inv s ns)
    (h0 : s.element_count = 0) :
    (∀ v, s.erase v = (s, false)) ∧ (∀ v, s.contains v = false) ∧
    s.begin = s.endIter := by
  have hns : ns = [] := by
    have h := hInv.hcount
    rw [h0] at h
    exact List.length_eq_zero.1 h.symm
  subst hns
  refine ⟨?_, ?_, ?_⟩
  · intro v
    simp only [skip_list.erase]
    rw [if_pos h0]
  · intro v
    cases hc : s.contains v
    · rfl
    · exfalso
      have h2 := (contains_spec hInv v).1 hc
      simp at h2
  · show s.begin = none
    have h := hInv.hchains 0 (by norm_num [MAX_HEIGHT])
    have hlev : levChain s [] 0 = [] := rfl
    rw [hlev] at h
    exact h

/-- Closed instance of C6 on the freshly constructed list. -/
theorem claim_C6_witness :
    (skip_list.new : skip_list Nat).erase 5 = (skip_list.new, false) ∧
    (skip_list.new : skip_list Nat).contains 5 = false ∧
    (skip_list.new : skip_list Nat).begin = (skip_list.new : skip_list Nat).endIter := by
  have h := claim_C6 (inv_new (K := Nat)) rfl
  exact ⟨h.1 5, h.2.1 5, h.2.2⟩

/-- C7: after `clear()` on any state, the size is 0, `empty()` holds,
`begin() = end()`, every sentinel forward link is null, `current_height` is 0,
and no key is found by `contains` or `find`; on an already-empty list `clear`
is safe and leaves the list empty. -/
theorem claim_C7 (s : skip_list K) :
    (s.clear).size = 0 ∧ (s.clear).isEmpty = true ∧
    (s.clear).begin = (s.clear).endIter ∧
    (∀ i, (s.clear).sentinel_forward.getD i none = none) ∧
    (s.clear).current_height = 0 ∧
    (∀ v, (s.clear).contains v = false) ∧
    (∀ v, (s.clear).find v = none) ∧
    (s.clear).toKeys = [] := by
  refine ⟨rfl, rfl, ?_, clear_sentinel_getD s, rfl, clear_contains s, clear_find s, ?_⟩
  · show (s.clear).begin = none
    exact clear_sentinel_getD s 0
  · show ((s.clear).chainFrom (s.clear).arena.length (s.clear).begin).filterMap
      (s.clear).nodeVal? = []
    have hbg : (s.clear).begin = none := clear_sentinel_getD s 0
    rw [hbg, chainFrom_none]
    rfl

/-- Closed instance of C7 after clearing a one-element list. -/
theorem claim_C7_witness :
    ((((skip_list.new : skip_list Nat).insert 5 (fun _ => false)).1).clear).size = 0 ∧
    ((((skip_list.new : skip_list Nat).insert 5
      (fun _ => false)).1).clear).contains 5 = false ∧
    ((((skip_list.new : skip_list Nat).insert 5
      (fun _ => false)).1).clear).current_height = 0 := by
  have h := claim_C7 (((skip_list.new : skip_list Nat).insert 5 (fun _ => false)).1)
  exact ⟨h.1, h.2.2.2.2.2.1 5, h.2.2.2.2.1⟩

/-- C8: height generation terminates for every stream of draws (it is a total
function of the stream) and always returns a height between 1 and
`MAX_HEIGHT = 16`. -/
theorem claim_C8 (coins : Nat → Bool) :
    1 ≤ generateRandomHeight coins ∧ generateRandomHeight coins ≤ MAX_HEIGHT ∧
    MAX_HEIGHT = 16 :=
  ⟨generateRandomHeight_pos coins, generateRandomHeight_le coins, rfl⟩

/-- Closed instance of C8 on an always-promoting stream. -/
theorem claim_C8_witness :
    1 ≤ generateRandomHeight (fun _ => true) ∧
    generateRandomHeight (fun _ => true) ≤ MAX_HEIGHT ∧ MAX_HEIGHT = 16 :=
  claim_C8 (fun _ => true)

/-- C9: `find(v)` is a non-end position iff `contains(v)`; a non-end result
dereferences to the key `v`; and when `v` is absent `find(v)` is `end()`. -/
theorem claim_C9 {s : skip_list K} {ns : List Nat} (hInv : Inv s ns) (v : K) :
    ((s.find v).isSome = true ↔ s.contains v = true) ∧
    (∀ p, s.find v = some p → s.nodeVal? p = some v) ∧
    (v ∉ ns.map s.valD → s.find v = none) := by
  refine ⟨(find_eq_some_iff s v).1, (find_eq_some_iff s v).2, ?_⟩
  intro hv
  have hc : s.contains v = false := by
    cases hc2 : s.contains v
    · rfl
    · exact absurd ((contains_spec hInv v).1 hc2) hv
  cases hf : s.find v with
  | none => rfl
  | some p =>
    exfalso
    have h2 := (find_eq_some_iff s v).1
    rw [hf] at h2
    have h3 : s.contains v = true := h2.1 rfl
    rw [hc] at h3
    cases h3

/-- Closed instance of C9 on the empty list. -/
theorem claim_C9_witness :
    (((skip_list.new : skip_list Nat).find 5).isSome = true ↔
      (skip_list.new : skip_list Nat).contains 5 = true) ∧
    ((skip_list.new : skip_list Nat).find 5 = none) := by
  have h := claim_C9 (inv_new (K := Nat)) 5
  exact ⟨h.1, h.2.2 (by simp)⟩

/-- C10: advancing the end (null) iterator — prefix or postfix — is a safe
no-op that leaves it equal to `end()`. -/
theorem claim_C10 (s : skip_list K) :
    s.iterSucc s.endIter = s.endIter ∧
    s.iterSuccPost s.endIter = (s.endIter, s.endIter) ∧
    (∀ it : Option Nat, it = s.endIter → s.iterSucc it = s.endIter) := by
  refine ⟨rfl, rfl, ?_⟩
  intro it h
  rw [h]
  rfl

/-- Closed instance of C10. -/
theorem claim_C10_witness :
    (skip_list.new : skip_list Nat).iterSucc
      (skip_list.new : skip_list Nat).endIter =
      (skip_list.new : skip_list Nat).endIter ∧
    (skip_list.new : skip_list Nat).iterSuccPost
      (skip_list.new : skip_list Nat).endIter =
      ((skip_list.new : skip_list Nat).endIter,
        (skip_list.new : skip_list Nat).endIter) := by
  have h := claim_C10 (skip_list.new : skip_list Nat)
  exact ⟨h.1, h.2.1⟩

end SkipListModel
